import Mathlib

/-!
Verification of the reactive-state / task toolkit (blank-bun).

Shallow embedding of:
* `ObservableValue` (src/src/utils/Timer.ts, embedded class, lines 96-162)
* `signal` / `batchUpdate` (src/src/utils/Signal.ts)
* `computed` (src/unnamed/part_001)
* `effect` (src/unnamed/part_002)
* `Task` (src/src/utils/Task.ts)
* `EventEmitter` (src/src/utils/Event.ts)

Values held by observables are modelled as `Int`; the JavaScript `!==`
check on them becomes `≠` on `Int`.  Change notifications delivered to
external subscribers are recorded in an explicit log (the emission itself
carries no other effect in the configurations the claims describe).
-/

namespace OV

/-- State of one plain `ObservableValue`: `_value` plus the log of `change`
emissions delivered to its subscribers (newest last). -/
structure OVState where
  val : Int
  log : List Int
  deriving Repr, DecidableEq

/-- `set value(newValue)` of `ObservableValue`:
`if (newValue !== this._value) { this._value = newValue; emit("change", newValue) }`. -/
def setValue (s : OVState) (v : Int) : OVState :=
  if v ≠ s.val then { val := v, log := s.log ++ [v] } else s

/-- A sequence of writes through the `value` setter. -/
def writeAll (s : OVState) (ws : List Int) : OVState :=
  ws.foldl setValue s

/-- Spec-side definition (from the spec's words, for comparison with the code):
the subsequence of writes whose new value differs from the value held
immediately before the write, starting from current value `c`. -/
def specChangedWrites : Int → List Int → List Int
  | _, [] => []
  | c, w :: ws => if w ≠ c then w :: specChangedWrites w ws else specChangedWrites c ws

theorem writeAll_log (c : Int) (L ws : List Int) :
    (writeAll ⟨c, L⟩ ws).log = L ++ specChangedWrites c ws := by
  induction ws generalizing c L with
  | nil => simp [writeAll, specChangedWrites]
  | cons w ws ih =>
    by_cases h : w = c
    · subst h
      simp [writeAll, specChangedWrites, setValue] at *
      exact ih w L
    · simp only [writeAll, List.foldl_cons, setValue, if_pos h, specChangedWrites]
      rw [show (ws.foldl setValue { val := w, log := L ++ [w] }) = writeAll ⟨w, L ++ [w]⟩ ws from rfl]
      rw [ih w (L ++ [w])]
      simp [h]

/-- C2: for every sequence of writes through the `value` setter, a change
notification is emitted for exactly those writes whose new value differs
(`!==`) from the value held immediately before the write; identical writes
are no-ops; hence the number of notifications equals the number of
value-changing writes. -/
theorem c2_equality_suppression (v0 : Int) (ws : List Int) :
    (writeAll ⟨v0, []⟩ ws).log = specChangedWrites v0 ws ∧
    (writeAll ⟨v0, []⟩ ws).log.length = (specChangedWrites v0 ws).length := by
  have h := writeAll_log v0 [] ws
  simp only [List.nil_append] at h
  exact ⟨h, by rw [h]⟩

end OV

namespace ListAux

theorem getD_set_self {α : Type} [Inhabited α] (l : List α) (i : Nat) (x : α)
    (h : i < l.length) : (l.set i x).getD i default = x := by
  simp [List.getD, List.getElem?_set_self h]

theorem getD_set_ne {α : Type} [Inhabited α] (l : List α) (i j : Nat) (x : α)
    (h : j ≠ i) : (l.set i x).getD j default = l.getD j default := by
  simp [List.getD, List.getElem?_set_ne (Ne.symm h)]

theorem take_succ_of_lt {α : Type} [Inhabited α] (l : List α) (n : Nat) (h : n < l.length) :
    l.take (n + 1) = l.take n ++ [l.getD n default] := by
  rw [List.take_succ]
  simp [List.getElem?_eq_getElem h, List.getD]

end ListAux

namespace Sig

/-!
Model of `signal`-wrapped observables and `batchUpdate`
(src/src/utils/Signal.ts, non-React path).

A signal's overridden `value` property keeps two copies of the value:
`cur` is the closure variable `currentValue` (returned by the overridden
getter and assigned first by the overridden setter) and `em` is the
underlying `ObservableValue._value` (updated only by `updateValue`, which
also emits the `change` event).  `queue` is the module-level `updateQueue`
(a JS `Set`, iterated in insertion order), `batching` is `isBatching`, and
`log` records the `change` emissions `(signal index, value)` delivered to
subscribers.
-/

/-- One signal: `currentValue` (closure) and `_value` (emitter-side). -/
structure SSig where
  cur : Int
  em : Int
  deriving Repr, DecidableEq

instance : Inhabited SSig := ⟨⟨0, 0⟩⟩

/-- Global state: the signals, `updateQueue`, `isBatching`, and the log of
delivered change notifications. -/
structure SState where
  sigs : List SSig
  queue : List Nat
  batching : Bool
  log : List (Nat × Int)
  deriving Repr, DecidableEq

/-- `updateQueue.add(observable)`: a JS `Set` keeps insertion order and
ignores re-insertion of a present element. -/
def addQ (q : List Nat) (i : Nat) : List Nat := if i ∈ q then q else q ++ [i]

/-- `ObservableValue.updateValue(newValue)`:
`if (newValue !== this._value) { this._value = newValue; emit("change", newValue) }`. -/
def updateValue (st : SState) (i : Nat) (v : Int) : SState :=
  let s := st.sigs.getD i default
  if v ≠ s.em then
    { st with sigs := st.sigs.set i ⟨s.cur, v⟩, log := st.log ++ [(i, v)] }
  else st

/-- The overridden `value` setter installed by `signal` (Signal.ts:112-124):
`if (newValue !== currentValue) { currentValue = newValue;
 if (isBatching) updateQueue.add(observable); else observable.updateValue(newValue) }`. -/
def setSig (st : SState) (i : Nat) (v : Int) : SState :=
  let s := st.sigs.getD i default
  if v ≠ s.cur then
    let st1 := { st with sigs := st.sigs.set i ⟨v, s.em⟩ }
    if st1.batching then { st1 with queue := addQ st1.queue i }
    else updateValue st1 i v
  else st

/-- The loop in `batchUpdate`'s `finally` block:
`for (const observable of updateQueue) observable.updateValue(observable.value)`;
`observable.value` is the overridden getter, i.e. `currentValue`. -/
def flushFold (q : List Nat) (st : SState) : SState :=
  q.foldl (fun a i => updateValue a i ((a.sigs.getD i default).cur)) st

/-- The `finally` block of `batchUpdate` (Signal.ts:34-41):
`isBatching = false;` flush loop; `updateQueue.clear()`. -/
def flush (st : SState) : SState :=
  let st1 := { st with batching := false }
  let st2 := flushFold st1.queue st1
  { st2 with queue := [] }

/-- `batchUpdate(updateFn)` (Signal.ts:30-42): `try { isBatching = true;
return updateFn() } finally { ...flush... }`.  The body returns the state it
produced plus whether it threw; the `finally` block runs either way and the
throw (if any) propagates afterwards. -/
def batchUpdate (st : SState) (body : SState → SState × Bool) : SState × Bool :=
  let p := body { st with batching := true }
  (flush p.1, p.2)

/-- A sequence of writes `sigs[i].value = v` for `(i, v)` in `ws`. -/
def writeAll (st : SState) (ws : List (Nat × Int)) : SState :=
  ws.foldl (fun a p => setSig a p.1 p.2) st

/-- A sequence of writes of the values `vs` to the single signal `i`. -/
def writeSeq (st : SState) (i : Nat) (vs : List Int) : SState :=
  vs.foldl (fun a v => setSig a i v) st

theorem mem_addQ (q : List Nat) (i : Nat) : i ∈ addQ q i := by
  by_cases h : i ∈ q <;> simp [addQ, h]

theorem mem_addQ_of_mem (q : List Nat) (i j : Nat) (h : j ∈ q) : j ∈ addQ q i := by
  by_cases hi : i ∈ q <;> simp [addQ, hi, h]

theorem addQ_idem (q : List Nat) (i : Nat) : addQ (addQ q i) i = addQ q i := by
  have h := mem_addQ q i
  simp only [addQ] at h ⊢
  rw [if_pos h]

theorem nodup_addQ (q : List Nat) (i : Nat) (h : q.Nodup) : (addQ q i).Nodup := by
  by_cases hi : i ∈ q
  · simpa [addQ, hi] using h
  · simp [addQ, hi, List.nodup_append, h]

theorem writeAll_cons (st : SState) (i : Nat) (v : Int) (ws : List (Nat × Int)) :
    writeAll st ((i, v) :: ws) = writeAll (setSig st i v) ws := rfl

theorem writeSeq_cons (st : SState) (i : Nat) (v : Int) (vs : List Int) :
    writeSeq st i (v :: vs) = writeSeq (setSig st i v) i vs := rfl

theorem updateValue_noop (st : SState) (i : Nat) (v : Int)
    (h : v = (st.sigs.getD i default).em) : updateValue st i v = st := by
  simp only [updateValue]
  rw [if_neg (not_not_intro h)]

theorem updateValue_emit (st : SState) (i : Nat) (v : Int)
    (h : v ≠ (st.sigs.getD i default).em) :
    updateValue st i v =
      { st with sigs := st.sigs.set i ⟨(st.sigs.getD i default).cur, v⟩,
                log := st.log ++ [(i, v)] } := by
  simp only [updateValue]
  rw [if_pos h]

theorem setSig_noop (st : SState) (i : Nat) (v : Int)
    (h : v = (st.sigs.getD i default).cur) : setSig st i v = st := by
  simp only [setSig]
  rw [if_neg (not_not_intro h)]

theorem setSig_batch (st : SState) (i : Nat) (v : Int) (hb : st.batching = true)
    (h : v ≠ (st.sigs.getD i default).cur) :
    setSig st i v =
      { st with sigs := st.sigs.set i ⟨v, (st.sigs.getD i default).em⟩,
                queue := addQ st.queue i } := by
  simp only [setSig]
  rw [if_pos h]
  simp only [hb, if_true]

theorem setSig_nobatch (st : SState) (i : Nat) (v : Int) (hb : st.batching = false)
    (h : v ≠ (st.sigs.getD i default).cur) :
    setSig st i v =
      updateValue { st with sigs := st.sigs.set i ⟨v, (st.sigs.getD i default).em⟩ } i v := by
  simp only [setSig]
  rw [if_pos h, hb]
  simp

theorem length_setSig (st : SState) (i : Nat) (v : Int) :
    (setSig st i v).sigs.length = st.sigs.length := by
  by_cases h : v = (st.sigs.getD i default).cur
  · rw [setSig_noop st i v h]
  · cases hb : st.batching
    · rw [setSig_nobatch st i v hb h]
      set st1 : SState := { st with sigs := st.sigs.set i ⟨v, (st.sigs.getD i default).em⟩ }
      by_cases h2 : v = (st1.sigs.getD i default).em
      · rw [updateValue_noop st1 i v h2]; simp [st1]
      · rw [updateValue_emit st1 i v h2]; simp [st1]
    · rw [setSig_batch st i v hb h]; simp

theorem cur_setSig (st : SState) (i : Nat) (v : Int) (h : i < st.sigs.length) :
    ((setSig st i v).sigs.getD i default).cur = v := by
  by_cases hv : v = (st.sigs.getD i default).cur
  · rw [setSig_noop st i v hv]; exact hv.symm
  · cases hb : st.batching
    · rw [setSig_nobatch st i v hb hv]
      set st1 : SState := { st with sigs := st.sigs.set i ⟨v, (st.sigs.getD i default).em⟩ }
        with hst1
      have hl1 : i < st1.sigs.length := by simpa [hst1] using h
      have hcur1 : (st1.sigs.getD i default).cur = v := by
        simp only [hst1]
        rw [ListAux.getD_set_self _ _ _ h]
      by_cases h2 : v = (st1.sigs.getD i default).em
      · rw [updateValue_noop st1 i v h2]; exact hcur1
      · rw [updateValue_emit st1 i v h2]
        simp only
        rw [ListAux.getD_set_self _ _ _ hl1, hcur1]
    · rw [setSig_batch st i v hb hv]
      simp only
      rw [ListAux.getD_set_self _ _ _ h]

/-- Writes performed while `isBatching` holds: the flag, the log and every
`_value` are untouched; the queue is only extended, stays duplicate-free,
and keeps recording every signal whose `currentValue` differs from its
`_value`. -/
theorem writeAll_batch (ws : List (Nat × Int)) (st : SState) (hb : st.batching = true) :
    (writeAll st ws).batching = true ∧
    (writeAll st ws).log = st.log ∧
    (writeAll st ws).sigs.length = st.sigs.length ∧
    (∀ j, ((writeAll st ws).sigs.getD j default).em = (st.sigs.getD j default).em) ∧
    (st.queue.Nodup → (writeAll st ws).queue.Nodup) ∧
    (∀ j, j ∈ st.queue → j ∈ (writeAll st ws).queue) ∧
    ((∀ j, (st.sigs.getD j default).cur ≠ (st.sigs.getD j default).em → j ∈ st.queue) →
      ∀ j, ((writeAll st ws).sigs.getD j default).cur ≠ ((writeAll st ws).sigs.getD j default).em →
        j ∈ (writeAll st ws).queue) := by
  induction ws generalizing st with
  | nil => exact ⟨hb, rfl, rfl, fun _ => rfl, fun h => h, fun _ h => h, fun h => h⟩
  | cons p ws ih =>
    obtain ⟨i, v⟩ := p
    rw [writeAll_cons]
    by_cases hv : v = (st.sigs.getD i default).cur
    · rw [setSig_noop st i v hv]; exact ih st hb
    · rw [setSig_batch st i v hb hv]
      set st1 : SState := ⟨st.sigs.set i ⟨v, (st.sigs.getD i default).em⟩, addQ st.queue i, st.batching, st.log⟩ with hst1
      have hb1 : st1.batching = true := hb
      obtain ⟨B, L, N, E, D, M, I⟩ := ih st1 hb1
      have hemj : ∀ j, (st1.sigs.getD j default).em = (st.sigs.getD j default).em := by
        intro j
        by_cases hj : j = i
        · subst hj
          by_cases hl : j < st.sigs.length
          · simp only [hst1]
            rw [ListAux.getD_set_self _ _ _ hl]
          · simp only [hst1]
            rw [List.getD_eq_default, List.getD_eq_default] <;> simp at hl ⊢ <;> omega
        · simp only [hst1]
          rw [ListAux.getD_set_ne _ _ _ _ hj]
      refine ⟨B, L, ?_, ?_, ?_, ?_, ?_⟩
      · rw [N]; simp [hst1]
      · intro j
        rw [E j, hemj j]
      · intro hnd
        exact D (nodup_addQ _ _ hnd)
      · intro j hj
        exact M j (mem_addQ_of_mem _ _ _ hj)
      · intro hInv
        refine I ?_
        intro j hj
        by_cases hji : j = i
        · subst hji; exact mem_addQ _ _
        · refine mem_addQ_of_mem _ _ _ (hInv j ?_)
          have hgd : st1.sigs.getD j default = st.sigs.getD j default := by
            simp only [hst1]
            exact ListAux.getD_set_ne _ _ _ _ hji
          rw [hgd] at hj
          exact hj

theorem updateValue_fields (st : SState) (i : Nat) (v : Int) :
    (updateValue st i v).batching = st.batching ∧
    (updateValue st i v).queue = st.queue ∧
    (updateValue st i v).sigs.length = st.sigs.length ∧
    (∀ j, ((updateValue st i v).sigs.getD j default).cur = (st.sigs.getD j default).cur) ∧
    (∀ j, j ≠ i → (updateValue st i v).sigs.getD j default = st.sigs.getD j default) := by
  by_cases h : v = (st.sigs.getD i default).em
  · rw [updateValue_noop st i v h]
    exact ⟨rfl, rfl, rfl, fun _ => rfl, fun _ _ => rfl⟩
  · rw [updateValue_emit st i v h]
    refine ⟨rfl, rfl, by simp, ?_, ?_⟩
    · intro j
      by_cases hj : j = i
      · subst hj
        by_cases hl : j < st.sigs.length
        · show ((st.sigs.set j _).getD j default).cur = _
          rw [ListAux.getD_set_self _ _ _ hl]
        · show ((st.sigs.set j _).getD j default).cur = _
          rw [List.set_eq_of_length_le (by omega)]
      · show ((st.sigs.set i _).getD j default).cur = _
        rw [ListAux.getD_set_ne _ _ _ _ hj]
    · intro j hj
      show (st.sigs.set i _).getD j default = _
      exact ListAux.getD_set_ne _ _ _ _ hj

/-- After `updateValue st i (current value of i)`, signal `i` holds equal
`currentValue` and `_value`. -/
theorem updateValue_syncs (st : SState) (i : Nat) :
    ((updateValue st i ((st.sigs.getD i default).cur)).sigs.getD i default).cur
      = ((updateValue st i ((st.sigs.getD i default).cur)).sigs.getD i default).em := by
  by_cases h : (st.sigs.getD i default).cur = (st.sigs.getD i default).em
  · rw [updateValue_noop st i _ h]
    exact h
  · by_cases hl : i < st.sigs.length
    · rw [updateValue_emit st i _ h]
      show ((st.sigs.set i _).getD i default).cur = ((st.sigs.set i _).getD i default).em
      rw [ListAux.getD_set_self _ _ _ hl]
    · exfalso
      apply h
      have hd : st.sigs.getD i default = default := List.getD_eq_default _ _ (by omega)
      rw [hd]
      rfl

theorem flushFold_cons (k : Nat) (q : List Nat) (st : SState) :
    flushFold (k :: q) st = flushFold q (updateValue st k ((st.sigs.getD k default).cur)) := rfl

theorem flushFold_fields (q : List Nat) (st : SState) :
    (flushFold q st).batching = st.batching ∧
    (flushFold q st).queue = st.queue ∧
    (flushFold q st).sigs.length = st.sigs.length ∧
    (∀ j, ((flushFold q st).sigs.getD j default).cur = (st.sigs.getD j default).cur) := by
  induction q generalizing st with
  | nil => exact ⟨rfl, rfl, rfl, fun _ => rfl⟩
  | cons k q ih =>
    rw [flushFold_cons]
    obtain ⟨B, Q, N, C⟩ := ih (updateValue st k ((st.sigs.getD k default).cur))
    obtain ⟨B2, Q2, N2, C2, _⟩ := updateValue_fields st k ((st.sigs.getD k default).cur)
    exact ⟨B.trans B2, Q.trans Q2, N.trans N2, fun j => (C j).trans (C2 j)⟩

/-- Every index that is either already synchronised or queued is
synchronised after the flush loop runs. -/
theorem flushFold_sync (q : List Nat) (st : SState) :
    ∀ j, ((st.sigs.getD j default).cur = (st.sigs.getD j default).em ∨ j ∈ q) →
      ((flushFold q st).sigs.getD j default).cur = ((flushFold q st).sigs.getD j default).em := by
  induction q generalizing st with
  | nil =>
    intro j h
    exact h.elim id (by simp)
  | cons k q ih =>
    intro j h
    rw [flushFold_cons]
    set st1 : SState := updateValue st k ((st.sigs.getD k default).cur) with hst1
    refine ih st1 j ?_
    by_cases hjk : j = k
    · subst hjk
      exact Or.inl (updateValue_syncs st j)
    · rcases h with h | h
      · refine Or.inl ?_
        have he : st1.sigs.getD j default = st.sigs.getD j default :=
          (updateValue_fields st k _).2.2.2.2 j hjk
        rw [he]
        exact h
      · rcases List.mem_cons.mp h with h | h
        · exact absurd h hjk
        · exact Or.inr h

/-- The notification the flush loop emits for a queued signal `i`: its
`currentValue`, provided that differs from its `_value` (else nothing,
by `updateValue`'s equality check). -/
def flushEntry (st : SState) (i : Nat) : Option (Nat × Int) :=
  if (st.sigs.getD i default).cur ≠ (st.sigs.getD i default).em
  then some (i, (st.sigs.getD i default).cur) else none

/-- What the flush loop logs: one notification per queued signal whose
`currentValue` differs from its `_value`, carrying the `currentValue`, in
queue (insertion) order. -/
theorem flushFold_log (q : List Nat) (st : SState) (hnd : q.Nodup) :
    (flushFold q st).log = st.log ++ q.filterMap (flushEntry st) := by
  induction q generalizing st with
  | nil => simp [flushFold]
  | cons k q ih =>
    rw [flushFold_cons]
    have hkq : k ∉ q := (List.nodup_cons.mp hnd).1
    have hq : q.Nodup := (List.nodup_cons.mp hnd).2
    by_cases h : (st.sigs.getD k default).cur = (st.sigs.getD k default).em
    · rw [updateValue_noop st k _ h]
      rw [ih st hq]
      have hnone : flushEntry st k = none := by
        unfold flushEntry
        rw [if_neg (not_not_intro h)]
      rw [List.filterMap_cons_none hnone]
    · have h2 : (st.sigs.getD k default).cur ≠ (st.sigs.getD k default).em := h
      rw [updateValue_emit st k _ h2]
      set st1 : SState := { st with sigs := st.sigs.set k ⟨(st.sigs.getD k default).cur, (st.sigs.getD k default).cur⟩, log := st.log ++ [(k, (st.sigs.getD k default).cur)] } with hst1
      rw [ih st1 hq]
      have hcong : q.filterMap (flushEntry st1) = q.filterMap (flushEntry st) := by
        refine List.filterMap_congr ?_
        intro i hi
        have hik : i ≠ k := fun he => hkq (he ▸ hi)
        have hgd : st1.sigs.getD i default = st.sigs.getD i default := by
          simp only [hst1]
          exact ListAux.getD_set_ne _ _ _ _ hik
        unfold flushEntry
        rw [hgd]
      rw [hcong]
      have hlog1 : st1.log = st.log ++ [(k, (st.sigs.getD k default).cur)] := rfl
      rw [hlog1]
      have hsome : flushEntry st k = some (k, (st.sigs.getD k default).cur) := by
        unfold flushEntry
        rw [if_pos h2]
      rw [List.filterMap_cons_some hsome]
      simp

/-- What `flush` guarantees when every unsynchronised signal is queued:
flag cleared, queue cleared, everything synchronised. -/
theorem flush_spec (st : SState)
    (hinv : ∀ j, (st.sigs.getD j default).cur ≠ (st.sigs.getD j default).em → j ∈ st.queue) :
    (flush st).batching = false ∧ (flush st).queue = [] ∧
    ∀ j, ((flush st).sigs.getD j default).cur = ((flush st).sigs.getD j default).em := by
  unfold flush
  refine ⟨(flushFold_fields _ _).1, rfl, ?_⟩
  intro j
  refine flushFold_sync st.queue { st with batching := false } j ?_
  by_cases h : (st.sigs.getD j default).cur = (st.sigs.getD j default).em
  · exact Or.inl h
  · exact Or.inr (hinv j h)

theorem length_writeSeq (vs : List Int) (i : Nat) (st : SState) :
    (writeSeq st i vs).sigs.length = st.sigs.length := by
  induction vs generalizing st with
  | nil => rfl
  | cons v vs ih =>
    rw [writeSeq_cons, ih (setSig st i v)]
    exact length_setSig st i v

/-- A run of writes to the single signal `i` while `isBatching` holds:
flag, log and `_value` untouched; the queue at most gains `i`; if the
`currentValue` moved, `i` is queued. -/
theorem writeSeq_batch (vs : List Int) (i : Nat) (st : SState) (hb : st.batching = true) :
    (writeSeq st i vs).batching = true ∧
    (writeSeq st i vs).log = st.log ∧
    ((writeSeq st i vs).sigs.getD i default).em = (st.sigs.getD i default).em ∧
    ((writeSeq st i vs).queue = st.queue ∨ (writeSeq st i vs).queue = addQ st.queue i) ∧
    (∀ j, j ∈ st.queue → j ∈ (writeSeq st i vs).queue) ∧
    (((writeSeq st i vs).sigs.getD i default).cur ≠ (st.sigs.getD i default).cur →
      i ∈ (writeSeq st i vs).queue) := by
  induction vs generalizing st with
  | nil =>
    exact ⟨hb, rfl, rfl, Or.inl rfl, fun _ h => h, fun h => absurd rfl h⟩
  | cons v vs ih =>
    rw [writeSeq_cons]
    by_cases hv : v = (st.sigs.getD i default).cur
    · rw [setSig_noop st i v hv]; exact ih st hb
    · rw [setSig_batch st i v hb hv]
      set st1 : SState := ⟨st.sigs.set i ⟨v, (st.sigs.getD i default).em⟩, addQ st.queue i, st.batching, st.log⟩ with hst1
      have hb1 : st1.batching = true := hb
      obtain ⟨B, L, E, Q, M, C⟩ := ih st1 hb1
      have hem1 : (st1.sigs.getD i default).em = (st.sigs.getD i default).em := by
        by_cases hl : i < st.sigs.length
        · simp only [hst1]
          rw [ListAux.getD_set_self _ _ _ hl]
        · simp only [hst1]
          rw [List.set_eq_of_length_le (by omega)]
      have hiq : i ∈ (writeSeq st1 i vs).queue := M i (by simp only [hst1]; exact mem_addQ _ _)
      refine ⟨B, L, E.trans hem1, ?_, ?_, fun _ => hiq⟩
      · rcases Q with Q | Q
        · refine Or.inr ?_
          rw [Q]
        · refine Or.inr ?_
          rw [Q]
          show addQ (addQ st.queue i) i = addQ st.queue i
          exact addQ_idem st.queue i
      · intro j hj
        exact M j (by simp only [hst1]; exact mem_addQ_of_mem _ _ _ hj)

/-- Reads inside the batch observe each newly written value: after the
writes `vs.take (j+1)`, the overridden getter of signal `i` returns
`vs[j]`. -/
theorem writeSeq_take_cur (vs : List Int) (i : Nat) (st : SState) (hlen : i < st.sigs.length)
    (j : Nat) (hj : j < vs.length) :
    ((writeSeq st i (vs.take (j + 1))).sigs.getD i default).cur = vs.getD j default := by
  rw [ListAux.take_succ_of_lt vs j hj]
  show ((List.foldl _ st (vs.take j ++ [vs.getD j default])).sigs.getD i default).cur = _
  rw [List.foldl_append]
  have hl2 : i < (writeSeq st i (vs.take j)).sigs.length := by
    rw [length_writeSeq]; exact hlen
  exact cur_setSig _ i _ hl2

theorem addQ_nil (i : Nat) : addQ [] i = [i] := rfl

theorem flush_single (st : SState) (i : Nat) (hq : st.queue = [i]) :
    flush st =
      { updateValue { st with batching := false } i ((st.sigs.getD i default).cur) with
        queue := [] } := by
  show ({ flushFold st.queue { st with batching := false } with queue := [] } : SState) = _
  rw [hq]
  rfl

theorem flush_log (st : SState) (hnd : st.queue.Nodup) :
    (flush st).log = st.log ++ st.queue.filterMap (flushEntry st) := by
  show (flushFold st.queue { st with batching := false }).log = _
  rw [flushFold_log st.queue { st with batching := false } hnd]
  rfl

/-- The state reached inside an outer `batchUpdate` body right after a
re-entrant inner `batchUpdate` call returns: the outer call has set the
flag, the body has performed the writes `ws`, and then the inner call ran
(performing the writes `iws`).  The outer body has not yet finished. -/
def nestedMid (st : SState) (ws iws : List (Nat × Int)) : SState :=
  (batchUpdate (writeAll { st with batching := true } ws)
    (fun s => (writeAll s iws, false))).1

/-- C1 (amended): a nested re-entrant `batchUpdate` call does not defer to
the outermost batch.  Its `finally` block unconditionally clears the
batching flag, flushes every pending Observable Value (synchronising
`_value` with `currentValue`, i.e. delivering the pending notifications)
and clears the pending set — all before the outer batch body finishes. -/
theorem c1_nested_batch_flushes_at_inner_exit (st : SState) (ws iws : List (Nat × Int))
    (hsync : ∀ j, (st.sigs.getD j default).cur = (st.sigs.getD j default).em) :
    (nestedMid st ws iws).batching = false ∧
    (nestedMid st ws iws).queue = [] ∧
    ∀ j, ((nestedMid st ws iws).sigs.getD j default).cur
      = ((nestedMid st ws iws).sigs.getD j default).em := by
  have hinv0 : ∀ j, (({ st with batching := true } : SState).sigs.getD j default).cur ≠
      (({ st with batching := true } : SState).sigs.getD j default).em →
      j ∈ ({ st with batching := true } : SState).queue := by
    intro j hj
    exact absurd (hsync j) hj
  obtain ⟨B1, _, _, _, _, _, I1⟩ := writeAll_batch ws { st with batching := true } rfl
  set s1 : SState := writeAll { st with batching := true } ws with hs1
  have hinv1 := I1 hinv0
  have hinv1b : ∀ j, (({ s1 with batching := true } : SState).sigs.getD j default).cur ≠
      (({ s1 with batching := true } : SState).sigs.getD j default).em →
      j ∈ ({ s1 with batching := true } : SState).queue := hinv1
  obtain ⟨B2, _, _, _, _, _, I2⟩ := writeAll_batch iws { s1 with batching := true } rfl
  have hinv2 := I2 hinv1b
  have hres : nestedMid st ws iws = flush (writeAll { s1 with batching := true } iws) := rfl
  rw [hres]
  exact flush_spec _ hinv2

/-- C1 counterexample: one signal holding `0`, inside an outer batch (flag
set) that has written `1` (so the signal is pending).  A re-entrant inner
`batchUpdate` with an empty body returns — and at that point, still inside
the outer body, the batching flag is already cleared, the pending set is
already empty, and the pending notification has already been delivered,
contrary to the claim that the inner call performs no flush and leaves the
flag set until the outermost body completes. -/
theorem c1_counterexample :
    (batchUpdate (setSig { sigs := [⟨0, 0⟩], queue := [], batching := true, log := [] } 0 1)
        (fun s => (s, false))).1
      = { sigs := [⟨1, 1⟩], queue := [], batching := false, log := [(0, 1)] } := by
  decide

/-- A concrete starting state: one signal holding `0`, synchronised, no
batch open, nothing logged. -/
def oneSig : SState := { sigs := [⟨0, 0⟩], queue := [], batching := false, log := [] }

theorem oneSig_sync : ∀ j, ((oneSig.sigs.getD j default).cur = (oneSig.sigs.getD j default).em) := by
  intro j; cases j <;> rfl

/-- C1 witness: the amended theorem applied to a concrete nested run. -/
theorem c1_witness :
    (∀ j, ((oneSig.sigs.getD j default).cur = (oneSig.sigs.getD j default).em)) ∧
    (nestedMid oneSig [(0, 1)] [(0, 2)]).batching = false ∧
    (nestedMid oneSig [(0, 1)] [(0, 2)]).queue = [] := by
  have h := c1_nested_batch_flushes_at_inner_exit oneSig [(0, 1)] [(0, 2)] oneSig_sync
  exact ⟨oneSig_sync, h.1, h.2.1⟩

/-- C5 (amended): writing `N ≥ 1` pairwise distinct values to one signal
inside a single batch: reads inside the batch observe each newly written
value immediately; no notification is delivered while the body runs; and
after the body returns the batch delivers exactly one notification
carrying the final value — provided the final value differs from the
signal's pre-batch value.  (When the final value equals the pre-batch
value, `updateValue`'s equality check at flush time suppresses the
notification entirely; see the counterexample.) -/
theorem c5_batch_coalesces_to_final_write (st : SState) (i : Nat) (vs : List Int)
    (hq : st.queue = [])
    (hsi : (st.sigs.getD i default).cur = (st.sigs.getD i default).em)
    (hlen : i < st.sigs.length)
    (hne : vs ≠ [])
    (_hdist : vs.Pairwise (· ≠ ·))
    (hlast : vs.getD (vs.length - 1) default ≠ (st.sigs.getD i default).cur) :
    (∀ j, j < vs.length →
      ((writeSeq { st with batching := true } i (vs.take (j + 1))).sigs.getD i default).cur
        = vs.getD j default) ∧
    (writeSeq { st with batching := true } i vs).log = st.log ∧
    (batchUpdate st (fun s => (writeSeq s i vs, false))).1.log
      = st.log ++ [(i, vs.getD (vs.length - 1) default)] ∧
    (batchUpdate st (fun s => (writeSeq s i vs, false))).2 = false := by
  have hlenb : i < ({ st with batching := true } : SState).sigs.length := hlen
  have hpre : ∀ j, j < vs.length →
      ((writeSeq { st with batching := true } i (vs.take (j + 1))).sigs.getD i default).cur
        = vs.getD j default := by
    intro j hj
    exact writeSeq_take_cur vs i { st with batching := true } hlenb j hj
  obtain ⟨B, L, E, Q, M, C⟩ := writeSeq_batch vs i { st with batching := true } rfl
  set mid : SState := writeSeq { st with batching := true } i vs with hmid
  have hlenpos : 0 < vs.length := List.length_pos.mpr hne
  have htake : vs.take (vs.length - 1 + 1) = vs := by
    rw [Nat.sub_add_cancel hlenpos]
    exact List.take_length vs
  have hcur : (mid.sigs.getD i default).cur = vs.getD (vs.length - 1) default := by
    have h2 := hpre (vs.length - 1) (by omega)
    rw [htake] at h2
    exact h2
  have hnemove : (mid.sigs.getD i default).cur ≠
      (({ st with batching := true } : SState).sigs.getD i default).cur := by
    rw [hcur]
    exact hlast
  have hiq := C hnemove
  have hq1 : mid.queue = [i] := by
    have hqb : ({ st with batching := true } : SState).queue = [] := hq
    rcases Q with Q | Q
    · rw [Q, hqb] at hiq
      exact absurd hiq (by simp)
    · rw [Q, hqb, addQ_nil]
  refine ⟨hpre, L, ?_, rfl⟩
  have hres : (batchUpdate st (fun s => (writeSeq s i vs, false))).1 = flush mid := rfl
  rw [hres, flush_single mid i hq1]
  have hne2 : (mid.sigs.getD i default).cur ≠
      (({ mid with batching := false } : SState).sigs.getD i default).em := by
    have he : (({ mid with batching := false } : SState).sigs.getD i default).em
        = (st.sigs.getD i default).em := E
    rw [he, hcur, ← hsi]
    exact hlast
  have hmb : (({ mid with batching := false } : SState).sigs.getD i default).cur
      = (mid.sigs.getD i default).cur := rfl
  show (updateValue { mid with batching := false } i ((mid.sigs.getD i default).cur)).log = _
  rw [updateValue_emit _ i _ (by rw [hmb] at hne2 ⊢; exact hne2)]
  show mid.log ++ [(i, (mid.sigs.getD i default).cur)] = _
  rw [L, hcur]

/-- C5 counterexample: two pairwise distinct values `1` then `0` written
in one batch to a signal holding `0`.  The claim demands exactly one
notification carrying the final value `0`; the code delivers none,
because the flush calls `updateValue` with a current value equal to the
pre-batch `_value`. -/
theorem c5_counterexample :
    ([1, 0] : List Int).Pairwise (· ≠ ·) ∧
    (batchUpdate oneSig (fun s => (writeSeq s 0 [1, 0], false))).1.log = [] := by
  constructor
  · decide
  · decide

/-- C5 witness: the amended theorem applied to a concrete batched run. -/
theorem c5_witness :
    (0 : Nat) < oneSig.sigs.length ∧ ([1, 2] : List Int).Pairwise (· ≠ ·) ∧
    ([1, 2] : List Int).getD 1 default ≠ (oneSig.sigs.getD 0 default).cur ∧
    (batchUpdate oneSig (fun s => (writeSeq s 0 [1, 2], false))).1.log = [(0, 2)] := by
  have h := c5_batch_coalesces_to_final_write oneSig 0 [1, 2] rfl rfl (by decide)
    (by decide) (by decide) (by decide)
  refine ⟨by decide, by decide, by decide, ?_⟩
  have h3 := h.2.2.1
  exact h3.trans (by decide)

/-- C6 (amended): if the batch body throws after performing any writes,
the exception is re-raised to the caller, and immediately afterwards the
batching flag is false and the pending set is empty.  Before the
exception propagates, the `finally` block flushes the pending set: each
pending Observable Value whose current value differs from its last
notified `_value` is notified exactly once, with its already-updated
current value, in queue order; a pending Observable Value whose current
value has returned to its `_value` is dropped silently by `updateValue`'s
equality check (see the counterexample). -/
theorem c6_throwing_batch_flushes_and_rethrows (st : SState) (ws : List (Nat × Int))
    (hq : st.queue = [])
    (hsync : ∀ j, (st.sigs.getD j default).cur = (st.sigs.getD j default).em) :
    (batchUpdate st (fun s => (writeAll s ws, true))).2 = true ∧
    (batchUpdate st (fun s => (writeAll s ws, true))).1.batching = false ∧
    (batchUpdate st (fun s => (writeAll s ws, true))).1.queue = [] ∧
    (batchUpdate st (fun s => (writeAll s ws, true))).1.log
      = st.log ++ (writeAll { st with batching := true } ws).queue.filterMap
          (flushEntry (writeAll { st with batching := true } ws)) ∧
    (∀ j, ((batchUpdate st (fun s => (writeAll s ws, true))).1.sigs.getD j default).cur
      = ((batchUpdate st (fun s => (writeAll s ws, true))).1.sigs.getD j default).em) := by
  have hinv0 : ∀ j, (({ st with batching := true } : SState).sigs.getD j default).cur ≠
      (({ st with batching := true } : SState).sigs.getD j default).em →
      j ∈ ({ st with batching := true } : SState).queue := by
    intro j hj
    exact absurd (hsync j) hj
  obtain ⟨B, L, N, E, D, M, I⟩ := writeAll_batch ws { st with batching := true } rfl
  set mid : SState := writeAll { st with batching := true } ws with hmid
  have hinv := I hinv0
  have hnd : mid.queue.Nodup := by
    refine D ?_
    show st.queue.Nodup
    rw [hq]
    exact List.nodup_nil
  have hres : (batchUpdate st (fun s => (writeAll s ws, true))).1 = flush mid := rfl
  have hsp := flush_spec mid hinv
  refine ⟨rfl, by rw [hres]; exact hsp.1, by rw [hres]; exact hsp.2.1, ?_, ?_⟩
  · rw [hres, flush_log mid hnd, L]
  · intro j
    rw [hres]
    exact hsp.2.2 j

/-- C6 counterexample: a signal holding `0` is written `1` then back to
`0` inside a batch whose body then throws.  The signal was recorded as
pending, yet the unwind delivers no notification for it (flag and queue
are still cleared and the exception still propagates), contradicting the
claim that every pending Observable Value is notified once. -/
theorem c6_counterexample :
    (writeAll { oneSig with batching := true } [(0, 1), (0, 0)]).queue = [0] ∧
    (batchUpdate oneSig (fun s => (writeAll s [(0, 1), (0, 0)], true))).2 = true ∧
    (batchUpdate oneSig (fun s => (writeAll s [(0, 1), (0, 0)], true))).1.log = [] := by
  refine ⟨by decide, rfl, by decide⟩

/-- C6 witness: the amended theorem applied to a concrete throwing batch. -/
theorem c6_witness :
    oneSig.queue = [] ∧
    (batchUpdate oneSig (fun s => (writeAll s [(0, 5)], true))).2 = true ∧
    (batchUpdate oneSig (fun s => (writeAll s [(0, 5)], true))).1.batching = false ∧
    (batchUpdate oneSig (fun s => (writeAll s [(0, 5)], true))).1.queue = [] ∧
    (batchUpdate oneSig (fun s => (writeAll s [(0, 5)], true))).1.log = [(0, 5)] := by
  have h := c6_throwing_batch_flushes_and_rethrows oneSig [(0, 5)] rfl oneSig_sync
  exact ⟨rfl, h.1, h.2.1, h.2.2.1, h.2.2.2.1.trans (by decide)⟩

namespace ListAux

theorem getD_eq_getElem {α : Type} [Inhabited α] (l : List α) (n : Nat) (h : n < l.length) :
    l.getD n default = l[n] := by
  simp [List.getD, List.getElem?_eq_getElem h]

theorem set_getD_self {α : Type} [Inhabited α] (l : List α) (k : Nat) (x : α)
    (hx : x = l.getD k default) : l.set k x = l := by
  by_cases h : k < l.length
  · apply List.ext_getElem (by simp)
    intro n h1 h2
    by_cases hn : n = k
    · subst hn
      have hs : (l.set n x)[n] = x := by simp [List.getElem_set_self]
      rw [hs, hx]
      exact getD_eq_getElem l n h2
    · rw [List.getElem_set_ne (Ne.symm hn)]
  · rw [List.set_eq_of_length_le (by omega)]

end ListAux

namespace Cmp

/-!
Model of `computed` (src/unnamed/part_001) over source observables,
together with the batching machinery of Signal.ts, for claims C3 and C4.

Configuration: sources `S1..Sn` and one Computed Value built over all of
them.  Each source's listener list holds exactly the computed value's
recomputation listener, subscribed at construction.  A source is either
`signal`-wrapped (`batched = true`, overridden setter, participates in
batching) or plain (`batched = false`, `ObservableValue`'s own setter,
which ignores batching).  For a plain source `cur` and `em` both model the
single `_value` field and are always written together.  The computed value
itself is created by `computed` as a plain `new ObservableValue`, so its
writes notify immediately; `clog` records what its external subscribers
observe at each notification: the emitted value, the computed value's
`_value` at invocation time, and the sources' current values at invocation
time.
-/

/-- One source observable: `currentValue`, `_value`, and whether `signal`
overrode its `value` property. -/
structure Src where
  cur : Int
  em : Int
  batched : Bool
  deriving Repr, DecidableEq

instance : Inhabited Src := ⟨⟨0, 0, false⟩⟩

/-- One notification delivered to an external subscriber of the computed
value: the emitted value, the computed value read back at invocation time,
and the sources' current values at invocation time. -/
structure CEntry where
  emitted : Int
  valAtEmit : Int
  srcVals : List Int
  deriving Repr, DecidableEq

/-- Global state: the sources, the computed value's `_value`, the log of
computed-value notifications, `updateQueue` and `isBatching`. -/
structure CState where
  srcs : List Src
  compVal : Int
  clog : List CEntry
  queue : List Nat
  batching : Bool
  deriving Repr, DecidableEq

/-- The computed value's own write path: the plain `ObservableValue`
setter (`computed$.value = ...`): `if (v !== _value) { _value = v;
emit("change", v) }`.  Its external subscribers run after `_value` is
updated, so they read back `v` and the sources' current values. -/
def compWrite (st : CState) (v : Int) : CState :=
  if v ≠ st.compVal then
    let st1 := { st with compVal := v }
    { st1 with clog := st1.clog ++ [⟨v, st1.compVal, st1.srcs.map Src.cur⟩] }
  else st

/-- The recomputation listener `computed` subscribes to every source
(part_001:35-39): read ALL sources' current values, apply `transform`,
write the result through the computed value's normal write path. -/
def recompute (f : List Int → Int) (st : CState) : CState :=
  compWrite st (f (st.srcs.map Src.cur))

/-- Emission of a source's `change` event.  In this configuration the
source's only listener is the recomputation listener (which ignores the
emitted value: `obs.subscribe(() => {...})`). -/
def emitSrc (f : List Int → Int) (st : CState) : CState :=
  recompute f st

/-- `ObservableValue.updateValue(v)` on source `i`: update `_value`, emit. -/
def updateValueSrc (f : List Int → Int) (st : CState) (i : Nat) (v : Int) : CState :=
  let s := st.srcs.getD i default
  if v ≠ s.em then
    emitSrc f { st with srcs := st.srcs.set i ⟨s.cur, v, s.batched⟩ }
  else st

/-- Writing `v` to source `i` through its `value` setter.  A
`signal`-wrapped source runs the overridden setter (Signal.ts:112-124); a
plain source runs `ObservableValue`'s own setter (compare against
`_value`, assign, emit), which ignores the batching flag entirely. -/
def setSrc (f : List Int → Int) (st : CState) (i : Nat) (v : Int) : CState :=
  let s := st.srcs.getD i default
  if s.batched then
    if v ≠ s.cur then
      let st1 := { st with srcs := st.srcs.set i ⟨v, s.em, s.batched⟩ }
      if st1.batching then { st1 with queue := Sig.addQ st1.queue i }
      else updateValueSrc f st1 i v
    else st
  else
    if v ≠ s.em then
      emitSrc f { st with srcs := st.srcs.set i ⟨v, v, s.batched⟩ }
    else st

/-- The flush loop of `batchUpdate`'s `finally` block, over sources. -/
def flushFoldC (f : List Int → Int) (q : List Nat) (st : CState) : CState :=
  q.foldl (fun a i => updateValueSrc f a i ((a.srcs.getD i default).cur)) st

/-- The `finally` block of `batchUpdate`. -/
def flushC (f : List Int → Int) (st : CState) : CState :=
  let st1 := { st with batching := false }
  let st2 := flushFoldC f st1.queue st1
  { st2 with queue := [] }

/-- `batchUpdate(updateFn)` in the computed configuration. -/
def batchUpdateC (f : List Int → Int) (st : CState) (body : CState → CState × Bool) :
    CState × Bool :=
  let p := body { st with batching := true }
  (flushC f p.1, p.2)

/-- `computed(observables, transform)` construction (part_001:26-41):
compute the initial value eagerly from current source values, create the
observable holding it, subscribe the recomputation listener to every
source. -/
def mkComputed (f : List Int → Int) (srcs : List Src) : CState :=
  { srcs := srcs, compVal := f (srcs.map Src.cur), clog := [], queue := [], batching := false }

/-- A sequence of writes `Si.value = v` for `(i, v)` in `ws`. -/
def writeAllC (f : List Int → Int) (st : CState) (ws : List (Nat × Int)) : CState :=
  ws.foldl (fun a p => setSrc f a p.1 p.2) st

end Cmp

namespace Cmp

theorem writeAllC_cons (f : List Int → Int) (st : CState) (i : Nat) (v : Int)
    (ws : List (Nat × Int)) :
    writeAllC f st ((i, v) :: ws) = writeAllC f (setSrc f st i v) ws := rfl

theorem flushFoldC_cons (f : List Int → Int) (k : Nat) (q : List Nat) (st : CState) :
    flushFoldC f (k :: q) st
      = flushFoldC f q (updateValueSrc f st k ((st.srcs.getD k default).cur)) := rfl

theorem compWrite_noop (st : CState) (v : Int) (h : v = st.compVal) :
    compWrite st v = st := by
  simp only [compWrite]
  rw [if_neg (not_not_intro h)]

theorem compWrite_emit (st : CState) (v : Int) (h : v ≠ st.compVal) :
    compWrite st v
      = { st with compVal := v, clog := st.clog ++ [⟨v, v, st.srcs.map Src.cur⟩] } := by
  simp only [compWrite]
  rw [if_pos h]

theorem updateValueSrc_noop (f : List Int → Int) (st : CState) (i : Nat) (v : Int)
    (h : v = (st.srcs.getD i default).em) : updateValueSrc f st i v = st := by
  simp only [updateValueSrc]
  rw [if_neg (not_not_intro h)]

theorem updateValueSrc_emit (f : List Int → Int) (st : CState) (i : Nat) (v : Int)
    (h : v ≠ (st.srcs.getD i default).em) :
    updateValueSrc f st i v = emitSrc f { st with srcs := st.srcs.set i ⟨(st.srcs.getD i default).cur, v, (st.srcs.getD i default).batched⟩ } := by
  simp only [updateValueSrc]
  rw [if_pos h]

theorem setSrc_noop_batched (f : List Int → Int) (st : CState) (i : Nat) (v : Int)
    (hbt : (st.srcs.getD i default).batched = true)
    (h : v = (st.srcs.getD i default).cur) : setSrc f st i v = st := by
  simp only [setSrc]
  rw [if_pos hbt, if_neg (not_not_intro h)]

theorem setSrc_enqueue (f : List Int → Int) (st : CState) (i : Nat) (v : Int)
    (hb : st.batching = true)
    (hbt : (st.srcs.getD i default).batched = true)
    (h : v ≠ (st.srcs.getD i default).cur) :
    setSrc f st i v = { st with srcs := st.srcs.set i ⟨v, (st.srcs.getD i default).em, (st.srcs.getD i default).batched⟩, queue := Sig.addQ st.queue i } := by
  simp only [setSrc]
  rw [if_pos hbt, if_pos h,
    if_pos (show ({ st with srcs := st.srcs.set i ⟨v, (st.srcs.getD i default).em, (st.srcs.getD i default).batched⟩ } : CState).batching = true from hb)]

/-- Writing a changed value to a source outside any batch reduces, for both
source kinds, to updating the source and emitting its change event. -/
theorem setSrc_changed (f : List Int → Int) (st : CState) (i : Nat) (v : Int)
    (hb : st.batching = false)
    (hsi : (st.srcs.getD i default).cur = (st.srcs.getD i default).em)
    (hlen : i < st.srcs.length)
    (hchg : v ≠ (st.srcs.getD i default).cur) :
    setSrc f st i v =
      emitSrc f { st with srcs := st.srcs.set i ⟨v, v, (st.srcs.getD i default).batched⟩ } := by
  simp only [setSrc]
  by_cases hbt : (st.srcs.getD i default).batched
  · rw [if_pos hbt, if_pos hchg]
    have hb1 : ({ st with srcs := st.srcs.set i ⟨v, (st.srcs.getD i default).em, (st.srcs.getD i default).batched⟩ } : CState).batching = false := hb
    rw [if_neg (by rw [hb1]; simp)]
    simp only [updateValueSrc]
    set st1 : CState := { st with srcs := st.srcs.set i ⟨v, (st.srcs.getD i default).em, (st.srcs.getD i default).batched⟩ } with hst1
    have hget : st1.srcs.getD i default = ⟨v, (st.srcs.getD i default).em, (st.srcs.getD i default).batched⟩ := by
      simp only [hst1]
      exact ListAux.getD_set_self _ _ _ hlen
    rw [hget]
    rw [if_pos (by rw [← hsi]; exact hchg)]
    congr 1
    simp only [hst1]
    rw [List.set_set]
  · rw [if_neg hbt, if_pos (show v ≠ (st.srcs.getD i default).em by rw [← hsi]; exact hchg)]

theorem map_cur_set_keep (l : List Src) (k : Nat) (y : Int) (b : Bool) :
    (l.set k ⟨(l.getD k default).cur, y, b⟩).map Src.cur = l.map Src.cur := by
  by_cases h : k < l.length
  · rw [List.map_set]
    apply ListAux.set_getD_self
    rw [ListAux.getD_eq_getElem (l.map Src.cur) k (by simpa using h)]
    rw [ListAux.getD_eq_getElem l k h]
    simp
  · rw [List.set_eq_of_length_le (by omega)]

/-- C3: outside a batch, a write that changes source `i` leaves the
computed value equal to `transform` of the current values of ALL sources
(recomputation is synchronous and reads every source), and every
notification the computed value delivers during that write lets its
subscribers observe exactly that consistent state: the emitted value, the
read-back computed value and the recorded source values all agree with
`transform` of the post-write source values. -/
theorem c3_computed_consistency (f : List Int → Int) (st : CState) (i : Nat) (v : Int)
    (hb : st.batching = false)
    (hsync : ∀ j, (st.srcs.getD j default).cur = (st.srcs.getD j default).em)
    (hlen : i < st.srcs.length)
    (hchg : v ≠ (st.srcs.getD i default).cur) :
    (setSrc f st i v).compVal = f ((setSrc f st i v).srcs.map Src.cur) ∧
    (setSrc f st i v).srcs.map Src.cur = (st.srcs.map Src.cur).set i v ∧
    ∃ tail, (setSrc f st i v).clog = st.clog ++ tail ∧
      ∀ e ∈ tail, e.valAtEmit = f e.srcVals ∧ e.emitted = e.valAtEmit ∧
        e.srcVals = (setSrc f st i v).srcs.map Src.cur := by
  rw [setSrc_changed f st i v hb (hsync i) hlen hchg]
  set st2 : CState := { st with srcs := st.srcs.set i ⟨v, v, (st.srcs.getD i default).batched⟩ } with hst2
  have hcurs : st2.srcs.map Src.cur = (st.srcs.map Src.cur).set i v := by
    simp only [hst2]
    rw [List.map_set]
  simp only [emitSrc, recompute]
  by_cases he : f (st2.srcs.map Src.cur) = st2.compVal
  · rw [compWrite_noop _ _ he]
    refine ⟨he.symm, hcurs, [], by simp, by simp⟩
  · rw [compWrite_emit _ _ he]
    refine ⟨rfl, hcurs, [⟨f (st2.srcs.map Src.cur), f (st2.srcs.map Src.cur), st2.srcs.map Src.cur⟩], rfl, ?_⟩
    intro e he2
    rw [List.mem_singleton] at he2
    subst he2
    exact ⟨rfl, rfl, rfl⟩

/-- The concrete transform used in witnesses: the sum of the sources. -/
def sumT : List Int → Int := fun l => l.foldl (fun a b => a + b) 0

/-- A concrete computed configuration for the C3 witness: two plain
sources holding `1` and `2`, computed value `sumT` = `3`. -/
def c3Start : CState := mkComputed sumT [⟨1, 1, false⟩, ⟨2, 2, false⟩]

theorem c3Start_sync :
    ∀ j, (c3Start.srcs.getD j default).cur = (c3Start.srcs.getD j default).em := by
  intro j
  match j with
  | 0 => rfl
  | 1 => rfl
  | n + 2 => rfl

/-- C3 witness: the theorem applied to a concrete write. -/
theorem c3_witness :
    (0 : Nat) < c3Start.srcs.length ∧ (5 : Int) ≠ (c3Start.srcs.getD 0 default).cur ∧
    (setSrc sumT c3Start 0 5).compVal = sumT ((setSrc sumT c3Start 0 5).srcs.map Src.cur) ∧
    (setSrc sumT c3Start 0 5).srcs.map Src.cur = [5, 2] := by
  have h := c3_computed_consistency sumT c3Start 0 5 rfl c3Start_sync (by decide) (by decide)
  exact ⟨by decide, by decide, h.1, h.2.1.trans (by decide)⟩

/-- Writes to `signal`-wrapped sources while `isBatching` holds: no
emission reaches the computed value (its log and value are untouched),
`_value`s and `batched` flags are untouched, each source whose
`currentValue` differs from its `_value` is recorded in the queue. -/
theorem writeAllC_batch (ws : List (Nat × Int)) (f : List Int → Int) (st : CState)
    (hb : st.batching = true)
    (hws : ∀ p ∈ ws, (st.srcs.getD p.1 default).batched = true) :
    (writeAllC f st ws).batching = true ∧
    (writeAllC f st ws).clog = st.clog ∧
    (writeAllC f st ws).compVal = st.compVal ∧
    (writeAllC f st ws).srcs.length = st.srcs.length ∧
    (∀ j, ((writeAllC f st ws).srcs.getD j default).em = (st.srcs.getD j default).em) ∧
    (∀ j, ((writeAllC f st ws).srcs.getD j default).batched = (st.srcs.getD j default).batched) ∧
    ((∀ j, (st.srcs.getD j default).cur ≠ (st.srcs.getD j default).em → j ∈ st.queue) →
      ∀ j, ((writeAllC f st ws).srcs.getD j default).cur
          ≠ ((writeAllC f st ws).srcs.getD j default).em →
        j ∈ (writeAllC f st ws).queue) := by
  induction ws generalizing st with
  | nil => exact ⟨hb, rfl, rfl, rfl, fun _ => rfl, fun _ => rfl, fun h => h⟩
  | cons p ws ih =>
    obtain ⟨i, v⟩ := p
    rw [writeAllC_cons]
    have hbt : (st.srcs.getD i default).batched = true := hws (i, v) (List.mem_cons_self _ _)
    by_cases hv : v = (st.srcs.getD i default).cur
    · rw [setSrc_noop_batched f st i v hbt hv]
      exact ih st hb (fun p hp => hws p (List.mem_cons_of_mem _ hp))
    · rw [setSrc_enqueue f st i v hb hbt hv]
      set st1 : CState := { st with srcs := st.srcs.set i ⟨v, (st.srcs.getD i default).em, (st.srcs.getD i default).batched⟩, queue := Sig.addQ st.queue i } with hst1
      have hgd_ne : ∀ j, j ≠ i → st1.srcs.getD j default = st.srcs.getD j default := by
        intro j hj
        simp only [hst1]
        exact ListAux.getD_set_ne _ _ _ _ hj
      have hgd_eq : i < st.srcs.length →
          st1.srcs.getD i default = ⟨v, (st.srcs.getD i default).em, (st.srcs.getD i default).batched⟩ := by
        intro hl
        simp only [hst1]
        exact ListAux.getD_set_self _ _ _ hl
      have hgd_out : ¬ i < st.srcs.length → st1.srcs = st.srcs := by
        intro hl
        simp only [hst1]
        rw [List.set_eq_of_length_le (by omega)]
      have hem1 : ∀ j, (st1.srcs.getD j default).em = (st.srcs.getD j default).em := by
        intro j
        by_cases hj : j = i
        · subst hj
          by_cases hl : j < st.srcs.length
          · rw [hgd_eq hl]
          · rw [hgd_out hl]
        · rw [hgd_ne j hj]
      have hfl1 : ∀ j, (st1.srcs.getD j default).batched = (st.srcs.getD j default).batched := by
        intro j
        by_cases hj : j = i
        · subst hj
          by_cases hl : j < st.srcs.length
          · rw [hgd_eq hl]
          · rw [hgd_out hl]
        · rw [hgd_ne j hj]
      have hws1 : ∀ p ∈ ws, (st1.srcs.getD p.1 default).batched = true := by
        intro p hp
        rw [hfl1 p.1]
        exact hws p (List.mem_cons_of_mem _ hp)
      obtain ⟨B, L, V, N, E, F, I⟩ := ih st1 hb hws1
      refine ⟨B, L, V, ?_, ?_, ?_, ?_⟩
      · rw [N]
        simp [hst1]
      · intro j
        rw [E j, hem1 j]
      · intro j
        rw [F j, hfl1 j]
      · intro hInv
        refine I ?_
        intro j hj
        by_cases hji : j = i
        · subst hji
          show j ∈ st1.queue
          simp only [hst1]
          exact Sig.mem_addQ _ _
        · rw [hgd_ne j hji] at hj
          show j ∈ st1.queue
          simp only [hst1]
          exact Sig.mem_addQ_of_mem _ _ _ (hInv j hj)

/-- The flush loop from a state whose computed value is already consistent
with the sources: every recomputation it triggers is suppressed by the
computed value's equality check, so value, log and source current values
are unchanged. -/
theorem flushFoldC_consistent (f : List Int → Int) (q : List Nat) (st : CState)
    (hc : st.compVal = f (st.srcs.map Src.cur)) :
    (flushFoldC f q st).compVal = st.compVal ∧
    (flushFoldC f q st).clog = st.clog ∧
    (flushFoldC f q st).srcs.map Src.cur = st.srcs.map Src.cur := by
  induction q generalizing st with
  | nil => exact ⟨rfl, rfl, rfl⟩
  | cons k q ih =>
    rw [flushFoldC_cons]
    by_cases hk : (st.srcs.getD k default).cur = (st.srcs.getD k default).em
    · rw [updateValueSrc_noop f st k _ hk]
      exact ih st hc
    · rw [updateValueSrc_emit f st k _ hk]
      set st2 : CState := { st with srcs := st.srcs.set k ⟨(st.srcs.getD k default).cur, (st.srcs.getD k default).cur, (st.srcs.getD k default).batched⟩ } with hst2
      have hcur2 : st2.srcs.map Src.cur = st.srcs.map Src.cur := by
        simp only [hst2]
        exact map_cur_set_keep st.srcs k _ _
      have hcw : emitSrc f st2 = st2 := by
        simp only [emitSrc, recompute]
        apply compWrite_noop
        rw [hcur2, ← hc]
      rw [hcw]
      obtain ⟨V, L, C⟩ := ih st2 (by rw [hcur2, ← hc])
      exact ⟨V, L, C.trans hcur2⟩

/-- The flush loop from a state whose computed value is stale and whose
queue holds at least one source with a pending change: the first such
source's `updateValue` emits, the recomputation listener reads ALL current
source values, and the computed value notifies exactly once with the fresh
result; every later recomputation in the same flush is suppressed by the
equality check. -/
theorem flushFoldC_pending (f : List Int → Int) (q : List Nat) (st : CState)
    (hvne : f (st.srcs.map Src.cur) ≠ st.compVal)
    (hpend : ∃ k, k ∈ q ∧ (st.srcs.getD k default).cur ≠ (st.srcs.getD k default).em) :
    (flushFoldC f q st).compVal = f (st.srcs.map Src.cur) ∧
    (flushFoldC f q st).clog = st.clog ++
      [⟨f (st.srcs.map Src.cur), f (st.srcs.map Src.cur), st.srcs.map Src.cur⟩] ∧
    (flushFoldC f q st).srcs.map Src.cur = st.srcs.map Src.cur := by
  induction q generalizing st with
  | nil =>
    obtain ⟨k, hk, _⟩ := hpend
    exact absurd hk (by simp)
  | cons k q ih =>
    rw [flushFoldC_cons]
    by_cases hk : (st.srcs.getD k default).cur = (st.srcs.getD k default).em
    · rw [updateValueSrc_noop f st k _ hk]
      refine ih st hvne ?_
      obtain ⟨j, hj, hjne⟩ := hpend
      rcases List.mem_cons.mp hj with hj | hj
      · exact absurd (hj ▸ hjne) (not_not_intro hk)
      · exact ⟨j, hj, hjne⟩
    · rw [updateValueSrc_emit f st k _ hk]
      set st2 : CState := { st with srcs := st.srcs.set k ⟨(st.srcs.getD k default).cur, (st.srcs.getD k default).cur, (st.srcs.getD k default).batched⟩ } with hst2
      have hcur2 : st2.srcs.map Src.cur = st.srcs.map Src.cur := by
        simp only [hst2]
        exact map_cur_set_keep st.srcs k _ _
      have hclog2 : st2.clog = st.clog := rfl
      have hvne2 : f (st2.srcs.map Src.cur) ≠ st2.compVal := by
        rw [hcur2]
        exact hvne
      have hes : emitSrc f st2 = compWrite st2 (f (st2.srcs.map Src.cur)) := rfl
      rw [hes, compWrite_emit st2 (f (st2.srcs.map Src.cur)) hvne2]
      obtain ⟨V, L, C⟩ := flushFoldC_consistent f q { st2 with compVal := f (st2.srcs.map Src.cur), clog := st2.clog ++ [⟨f (st2.srcs.map Src.cur), f (st2.srcs.map Src.cur), st2.srcs.map Src.cur⟩] } rfl
      refine ⟨V.trans (congrArg f hcur2), ?_, C.trans hcur2⟩
      rw [L]
      show st2.clog ++ [⟨f (st2.srcs.map Src.cur), f (st2.srcs.map Src.cur), st2.srcs.map Src.cur⟩] = _
      rw [hclog2, hcur2]

theorem map_cur_eq_of_getD (a b : List Src) (hl : a.length = b.length)
    (h : ∀ j, (a.getD j default).cur = (b.getD j default).cur) :
    a.map Src.cur = b.map Src.cur := by
  apply List.ext_getElem (by simp [hl])
  intro n h1 h2
  have h3 : n < a.length := by simpa using h1
  have h4 : n < b.length := by simpa using h2
  have h5 := h n
  rw [ListAux.getD_eq_getElem a n h3, ListAux.getD_eq_getElem b n h4] at h5
  simpa using h5

/-- C4: when `signal`-wrapped sources of a Computed Value change inside a
batch, the recomputed result reaches subscribers through the Observable
Value write path with batching semantics: no computed-value notification is
delivered while the batch body runs; at the flush the computed value is
recomputed from ALL sources' current (final) values; and its subscribers
receive at most one coalesced notification, carrying the final result —
none at all when the recomputed result equals the value from before the
batch (equality suppression applies to the recomputed result like any
other write). -/
theorem c4_batched_computed (f : List Int → Int) (st : CState) (ws : List (Nat × Int))
    (hsync : ∀ j, (st.srcs.getD j default).cur = (st.srcs.getD j default).em)
    (hcons : st.compVal = f (st.srcs.map Src.cur))
    (hws : ∀ p ∈ ws, (st.srcs.getD p.1 default).batched = true) :
    (writeAllC f { st with batching := true } ws).clog = st.clog ∧
    (batchUpdateC f st (fun s => (writeAllC f s ws, false))).2 = false ∧
    (batchUpdateC f st (fun s => (writeAllC f s ws, false))).1.srcs.map Src.cur
      = (writeAllC f { st with batching := true } ws).srcs.map Src.cur ∧
    (batchUpdateC f st (fun s => (writeAllC f s ws, false))).1.compVal
      = f ((writeAllC f { st with batching := true } ws).srcs.map Src.cur) ∧
    (batchUpdateC f st (fun s => (writeAllC f s ws, false))).1.clog
      = st.clog ++ (if f ((writeAllC f { st with batching := true } ws).srcs.map Src.cur) = f (st.srcs.map Src.cur) then [] else [⟨f ((writeAllC f { st with batching := true } ws).srcs.map Src.cur), f ((writeAllC f { st with batching := true } ws).srcs.map Src.cur), (writeAllC f { st with batching := true } ws).srcs.map Src.cur⟩]) := by
  obtain ⟨B, L, V, N, E, F, I⟩ := writeAllC_batch ws f { st with batching := true } rfl hws
  set mid : CState := writeAllC f { st with batching := true } ws with hmid
  set mid2 : CState := { mid with batching := false } with hmid2
  have hres : (batchUpdateC f st (fun s => (writeAllC f s ws, false))).1 = flushC f mid := rfl
  have hfl : flushC f mid = { flushFoldC f mid.queue mid2 with queue := [] } := rfl
  have hclog2st : mid2.clog = st.clog := L
  have hcomp2st : mid2.compVal = st.compVal := V
  by_cases hEq : f (mid.srcs.map Src.cur) = f (st.srcs.map Src.cur)
  · have hc2 : mid2.compVal = f (mid2.srcs.map Src.cur) := by
      rw [hcomp2st, hcons]
      exact hEq.symm
    obtain ⟨V2, L2, C2⟩ := flushFoldC_consistent f mid.queue mid2 hc2
    refine ⟨L, rfl, ?_, ?_, ?_⟩
    · rw [hres, hfl]
      exact C2
    · rw [hres, hfl]
      show (flushFoldC f mid.queue mid2).compVal = _
      rw [V2, hcomp2st, hcons, hEq]
    · rw [hres, hfl, if_pos hEq]
      show (flushFoldC f mid.queue mid2).clog = _
      rw [L2, hclog2st]
      simp
  · have hvne : f (mid2.srcs.map Src.cur) ≠ mid2.compVal := by
      show f (mid.srcs.map Src.cur) ≠ mid2.compVal
      rw [hcomp2st, hcons]
      exact hEq
    have hInv := I (fun j hj => absurd (hsync j) hj)
    have hpend : ∃ k, k ∈ mid2.queue ∧ (mid2.srcs.getD k default).cur ≠ (mid2.srcs.getD k default).em := by
      by_contra hnp
      push_neg at hnp
      have hall : ∀ j, (mid.srcs.getD j default).cur = (mid.srcs.getD j default).em := by
        intro j
        by_contra hne2
        exact hne2 (hnp j (hInv j hne2))
      have hptw : ∀ j, (mid.srcs.getD j default).cur = (st.srcs.getD j default).cur := by
        intro j
        rw [hall j, E j, ← hsync j]
      have hlen : mid.srcs.length = st.srcs.length := N
      exact hEq (congrArg f (map_cur_eq_of_getD mid.srcs st.srcs hlen hptw))
    obtain ⟨V2, L2, C2⟩ := flushFoldC_pending f mid.queue mid2 hvne hpend
    refine ⟨L, rfl, ?_, ?_, ?_⟩
    · rw [hres, hfl]
      exact C2
    · rw [hres, hfl]
      exact V2
    · rw [hres, hfl, if_neg hEq]
      show (flushFoldC f mid.queue mid2).clog = _
      rw [L2, hclog2st]

/-- A concrete computed configuration for the C4 witness: two
`signal`-wrapped sources holding `1` and `2`, computed value `sumT` = `3`. -/
def c4Start : CState := mkComputed sumT [⟨1, 1, true⟩, ⟨2, 2, true⟩]

theorem c4Start_sync :
    ∀ j, (c4Start.srcs.getD j default).cur = (c4Start.srcs.getD j default).em := by
  intro j
  match j with
  | 0 => rfl
  | 1 => rfl
  | n + 2 => rfl

/-- C4 witness: the theorem applied to a concrete batch writing both
sources; the body delivers nothing, the flush delivers the single
coalesced notification with the final recomputed value. -/
theorem c4_witness :
    c4Start.compVal = sumT (c4Start.srcs.map Src.cur) ∧
    (writeAllC sumT { c4Start with batching := true } [(0, 5), (1, 9)]).clog = [] ∧
    (batchUpdateC sumT c4Start (fun s => (writeAllC sumT s [(0, 5), (1, 9)], false))).1.compVal
      = sumT ((writeAllC sumT { c4Start with batching := true } [(0, 5), (1, 9)]).srcs.map Src.cur) ∧
    (batchUpdateC sumT c4Start (fun s => (writeAllC sumT s [(0, 5), (1, 9)], false))).1.clog
      = [⟨14, 14, [5, 9]⟩] := by
  have h := c4_batched_computed sumT c4Start [(0, 5), (1, 9)] c4Start_sync rfl
    (by intro p hp; rcases List.mem_cons.mp hp with h1 | h1
        · subst h1; rfl
        · rcases List.mem_cons.mp h1 with h2 | h2
          · subst h2; rfl
          · exact absurd h2 (by simp))
  refine ⟨rfl, h.1.trans (by decide), h.2.2.2.1, h.2.2.2.2.trans (by decide)⟩

namespace Task

/-!
Model of `Task` (src/src/utils/Task.ts).  A task's observable state is its
`_meta` record, whether `controller.abort()` has been invoked, the stored
result, and the sequence of lifecycle events it has emitted.  The work
function's settlement is passed in as an `Except`: `Except.error e` models
a rejection with error `e`, `Except.ok r` a resolution with `r`.  `run`'s
own outcome is returned alongside: `Except.error e` models the re-raise
out of `run`, `Except.ok r` the resolved result.
-/

/-- The payload of an `error` event: either the work function's own error
or the generic `new Error("abborted")` that `abort` emits. -/
inductive TErr where
  | handlerErr (code : Int)
  | abortErr
  deriving Repr, DecidableEq

/-- A lifecycle event, as emitted to the task's listeners (each `error`
and `done` event also carries the task itself). -/
inductive TEvent where
  | start
  | done (r : Int)
  | error (e : TErr)
  | data (d : Int)
  deriving Repr, DecidableEq

/-- The observable state of one `Task`. -/
structure TaskState where
  executed : Bool
  has_error : Bool
  aborted : Bool
  result : Option Int
  events : List TEvent
  deriving Repr, DecidableEq

/-- A freshly created task (`Task.create`): `_meta = {executed: false,
has_error: false}`, controller not aborted, nothing emitted. -/
def create : TaskState :=
  { executed := false, has_error := false, aborted := false, result := none, events := [] }

/-- `Task.run` (Task.ts:83-103): emit `start`; await the handler
(settlement `outcome`); set `_meta.executed = true`; on rejection set
`_meta.has_error = true`, emit `error` with the task and the error, and
re-raise; on success store the result, emit `done`, and return it. -/
def run (st : TaskState) (outcome : Except Int Int) : TaskState × Except TErr Int :=
  let st1 := { st with events := st.events ++ [TEvent.start] }
  match outcome with
  | Except.error e =>
      let st2 := { st1 with executed := true, has_error := true, events := st1.events ++ [TEvent.error (TErr.handlerErr e)] }
      (st2, Except.error (TErr.handlerErr e))
  | Except.ok r =>
      let st2 := { st1 with executed := true, result := some r, events := st1.events ++ [TEvent.done r] }
      (st2, Except.ok r)

/-- `Task.abort(safe?)` (Task.ts:105-114): set `_meta.executed = true`;
if `safe` is truthy, trigger the controller and return; otherwise set
`_meta.has_error = true`, trigger the controller, and emit `error` with
the task and `new Error("abborted")`. -/
def abort (st : TaskState) (safe : Bool) : TaskState :=
  let st1 := { st with executed := true }
  if safe then
    { st1 with aborted := true }
  else
    { st1 with has_error := true, aborted := true, events := st1.events ++ [TEvent.error TErr.abortErr] }

/-- C7: the failure/abort protocol.  (a) When the work function rejects,
`run` sets `_meta.executed` and `_meta.has_error`, emits `start` then an
`error` event carrying the error, and re-raises that error to its caller.
(b) `abort(true)` sets `_meta.executed`, triggers the cancellation token,
and emits no event at all.  (c) `abort()` (safe falsy) additionally sets
`_meta.has_error` and emits an `error` event carrying the generic abort
error — so each failure path raises an `error` event before or instead of
propagating an exception. -/
theorem c7_failure_and_abort_protocol (st : TaskState) (e : Int) :
    ((run st (Except.error e)).1.executed = true ∧
     (run st (Except.error e)).1.has_error = true ∧
     (run st (Except.error e)).1.events
       = st.events ++ [TEvent.start, TEvent.error (TErr.handlerErr e)] ∧
     (run st (Except.error e)).2 = Except.error (TErr.handlerErr e)) ∧
    ((abort st true).executed = true ∧
     (abort st true).aborted = true ∧
     (abort st true).has_error = st.has_error ∧
     (abort st true).events = st.events) ∧
    ((abort st false).executed = true ∧
     (abort st false).aborted = true ∧
     (abort st false).has_error = true ∧
     (abort st false).events = st.events ++ [TEvent.error TErr.abortErr]) := by
  refine ⟨⟨rfl, rfl, by simp [run], rfl⟩, ⟨rfl, rfl, rfl, rfl⟩, ⟨rfl, rfl, rfl, rfl⟩⟩

end Task

namespace EM

/-!
Model of `EventEmitter` (src/src/utils/Event.ts) for claim C8, tracking
JavaScript array identity.  `_listeners` is a `Map` from event key to an
array of listeners; arrays live in `heap` and the map (`tbl`, an
association list from key to heap index) holds references into it.

Mutation discipline taken from the source:
* `on` pushes onto the existing array in place (`listeners.push`);
* `off` never mutates an existing array: `filter` builds a NEW array which
  `Map.set` rebinds the key to (modelled as a fresh heap slot), or the key
  is deleted when the filtered array is empty;
* `emit` fetches the key's array once (`const listeners = ...get(event)`)
  and runs a `for...of` loop over that array object, re-reading it at each
  step — so concurrent `off` calls, which only rebind the map, cannot
  affect the iteration.

Listeners are identified by values of a type `L` with decidable equality
(`off` removes by `!==` identity, i.e. it keeps every element not equal to
the argument).  The behaviour of a listener during emission is a list of
`off` calls it performs — the operations claim C8 quantifies over.
-/

/-- Emitter state: `heap` of array objects (index = object identity) and
the map from key to array reference. -/
structure EMState (L : Type) where
  heap : List (List L)
  tbl : List (Nat × Nat)
  deriving Repr, DecidableEq

/-- `Map.get`: the reference bound to key `k`, if any. -/
def lookupKey {L : Type} (st : EMState L) (k : Nat) : Option Nat :=
  (st.tbl.find? (fun p => p.1 = k)).map (fun p => p.2)

/-- `Map.set k r`: rebind `k` (or append a new binding). -/
def tblSet (tbl : List (Nat × Nat)) (k r : Nat) : List (Nat × Nat) :=
  if tbl.any (fun p => p.1 = k) then
    tbl.map (fun p => if p.1 = k then (k, r) else p)
  else tbl ++ [(k, r)]

/-- The listeners currently registered for `k` (what `listeners(event)`
would copy). -/
def listenersOf {L : Type} (st : EMState L) (k : Nat) : List L :=
  match lookupKey st k with
  | none => []
  | some r => st.heap.getD r []

/-- `on(event, listener)` (Event.ts:32-42): create an empty array for the
key if absent, then push the listener onto the key's array in place.
(Named `onE` because `on` is reserved.) -/
def onE {L : Type} (st : EMState L) (k : Nat) (l : L) : EMState L :=
  match lookupKey st k with
  | some r => { st with heap := st.heap.set r (st.heap.getD r [] ++ [l]) }
  | none =>
      let r := st.heap.length
      let st1 : EMState L := { heap := st.heap ++ [[]], tbl := tblSet st.tbl k r }
      { st1 with heap := st1.heap.set r (st1.heap.getD r [] ++ [l]) }

/-- `off(event, listener)` (Event.ts:65-79): filter the key's array into a
NEW array (the old object is untouched); rebind the key to it if nonempty,
delete the key otherwise. -/
def off {L : Type} [DecidableEq L] (st : EMState L) (k : Nat) (l : L) : EMState L :=
  match lookupKey st k with
  | none => st
  | some r =>
      let nl := (st.heap.getD r []).filter (fun x => x ≠ l)
      if nl.length > 0 then
        { heap := st.heap ++ [nl], tbl := tblSet st.tbl k st.heap.length }
      else
        { st with tbl := st.tbl.filter (fun p => p.1 ≠ k) }

/-- What a listener may do while being invoked (the scope of claim C8):
`off` calls. -/
inductive EAct (L : Type) where
  | offA (k : Nat) (l : L)

/-- Run a listener's `off` calls. -/
def applyActs {L : Type} [DecidableEq L] (st : EMState L) (acts : List (EAct L)) : EMState L :=
  acts.foldl (fun a act => match act with | EAct.offA k l => off a k l) st

/-- The `for...of` loop of `emit` (Event.ts:126-128) over the array object
`r`, invoking listener `i`, `i+1`, ... : at each step the array object is
read again (a `for...of` iterator checks the index against the current
length and reads the current element), the listener is invoked with the
emission's arguments (logged), and its behaviour runs.  `fuel` bounds the
loop for totality; `emit` passes the array's length, which is exact
because `off`-only behaviours never change an existing array object. -/
def emitGo {L : Type} [DecidableEq L] (behav : L → List (EAct L)) (args : List Int) (r : Nat) :
    Nat → Nat → EMState L → List (L × List Int) → EMState L × List (L × List Int)
  | 0, _, st, acc => (st, acc)
  | fuel + 1, i, st, acc =>
      let arr := st.heap.getD r []
      if h : i < arr.length then
        let l := arr.get ⟨i, h⟩
        emitGo behav args r fuel (i + 1) (applyActs st (behav l)) (acc ++ [(l, args)])
      else (st, acc)

/-- `emit(event, ...args)` (Event.ts:118-130): return `false` if the key
is absent; otherwise fetch the key's array and invoke every listener in it
in order with the same arguments, then return `true`.  The result's third
component logs the invocations `(listener, arguments)` in order. -/
def emit {L : Type} [DecidableEq L] (st : EMState L) (k : Nat) (args : List Int)
    (behav : L → List (EAct L)) : EMState L × Bool × List (L × List Int) :=
  match lookupKey st k with
  | none => (st, false, [])
  | some r =>
      let p := emitGo behav args r ((st.heap.getD r []).length) 0 st []
      (p.1, true, p.2)

/-- Well-formed emitter: every binding points to a valid, nonempty array
(`on` only creates nonempty arrays and `off` deletes a key rather than
leave an empty one). -/
def EMWF {L : Type} (st : EMState L) : Prop :=
  ∀ p ∈ st.tbl, p.2 < st.heap.length ∧ st.heap.getD p.2 [] ≠ []

end EM

namespace EM

theorem getD_append_left {α : Type} (l ext : List α) (r : Nat) (d : α) (h : r < l.length) :
    (l ++ ext).getD r d = l.getD r d := by
  simp [List.getD, List.getElem?_append_left h]

/-- `off` never touches an existing array object: the heap is only ever
extended. -/
theorem off_heap_extends {L : Type} [DecidableEq L] (st : EMState L) (k : Nat) (l : L) :
    ∃ ext, (off st k l).heap = st.heap ++ ext := by
  cases h : lookupKey st k with
  | none =>
    simp only [off, h]
    exact ⟨[], by simp⟩
  | some r =>
    simp only [off, h]
    split
    · exact ⟨_, rfl⟩
    · exact ⟨[], by simp⟩

theorem applyActs_heap_extends {L : Type} [DecidableEq L] (acts : List (EAct L))
    (st : EMState L) : ∃ ext, (applyActs st acts).heap = st.heap ++ ext := by
  induction acts generalizing st with
  | nil => exact ⟨[], by simp [applyActs]⟩
  | cons act acts ih =>
    obtain ⟨k, l⟩ := act
    have hstep : applyActs st (EAct.offA k l :: acts) = applyActs (off st k l) acts := rfl
    rw [hstep]
    obtain ⟨e1, h1⟩ := off_heap_extends st k l
    obtain ⟨e2, h2⟩ := ih (off st k l)
    exact ⟨e1 ++ e2, by rw [h2, h1, List.append_assoc]⟩

/-- The emission loop invokes exactly the listeners of the array fetched
at the start, in order, each with the emission's arguments — for any
off-only behaviours, because those never change an existing array. -/
theorem emitGo_spec {L : Type} [DecidableEq L] (behav : L → List (EAct L)) (args : List Int)
    (r : Nat) (arr : List L) :
    ∀ fuel i (st : EMState L) (acc : List (L × List Int)),
      st.heap.getD r [] = arr → r < st.heap.length → arr.length - i ≤ fuel →
      (emitGo behav args r fuel i st acc).2
        = acc ++ (arr.drop i).map (fun l => (l, args)) := by
  intro fuel
  induction fuel with
  | zero =>
    intro i st acc harr hr hfuel
    have hi : arr.length ≤ i := by omega
    rw [List.drop_eq_nil_of_le hi]
    simp [emitGo]
  | succ fuel ih =>
    intro i st acc harr hr hfuel
    show (if h : i < (st.heap.getD r []).length then _ else (st, acc)).2 = _
    by_cases h : i < (st.heap.getD r []).length
    · rw [dif_pos h]
      have hiarr : i < arr.length := by rw [harr] at h; exact h
      have hget : (st.heap.getD r []).get ⟨i, h⟩ = arr[i] := by
        have : (st.heap.getD r []).get ⟨i, h⟩ = (st.heap.getD r [])[i] := rfl
        rw [this]
        congr 1
      set st2 : EMState L := applyActs st (behav ((st.heap.getD r []).get ⟨i, h⟩)) with hst2
      obtain ⟨ext, hext⟩ := applyActs_heap_extends (behav ((st.heap.getD r []).get ⟨i, h⟩)) st
      have harr2 : st2.heap.getD r [] = arr := by
        rw [hst2, hext, getD_append_left _ _ _ _ hr]
        exact harr
      have hr2 : r < st2.heap.length := by
        rw [hst2, hext]
        simp only [List.length_append]
        omega
      rw [ih (i + 1) st2 (acc ++ [((st.heap.getD r []).get ⟨i, h⟩, args)]) harr2 hr2 (by omega)]
      rw [hget, List.append_assoc]
      congr 1
      rw [List.drop_eq_getElem_cons hiarr]
      simp
      rw [List.drop_eq_getElem_cons (show i < (List.map (fun l => (l, args)) arr).length by simp [hiarr])]
      simp
    · rw [dif_neg h]
      have hi : arr.length ≤ i := by rw [harr] at h; omega
      rw [List.drop_eq_nil_of_le hi]
      simp

/-- C8: `emit` invokes every listener registered for the key at the moment
of the call, in registration order, passing the same arguments to each,
and returns `true` exactly when at least one listener was registered
(`false` otherwise, invoking nothing); a listener that removes itself or
any other listener via `off` during its own invocation does not disturb
this — `off` only rebinds the key's map entry to a freshly filtered array,
so the array being iterated is unchanged and the set of invocations of
that emission round does not depend on the behaviours at all. -/
theorem c8_emit_snapshot_semantics (L : Type) [DecidableEq L] (st : EMState L) (k : Nat)
    (args : List Int) (behav : L → List (EAct L)) (hwf : EMWF st) :
    ((emit st k args behav).2.1 = true ↔ listenersOf st k ≠ []) ∧
    (emit st k args behav).2.2 = (listenersOf st k).map (fun l => (l, args)) := by
  cases h : lookupKey st k with
  | none =>
    have hl : listenersOf st k = [] := by simp [listenersOf, h]
    constructor
    · rw [hl]
      simp [emit, h]
    · rw [hl]
      simp [emit, h]
  | some r =>
    have hmem : (k, r) ∈ st.tbl := by
      unfold lookupKey at h
      cases hf : st.tbl.find? (fun p => p.1 = k) with
      | none => rw [hf] at h; simp at h
      | some p =>
        rw [hf] at h
        simp at h
        have hp1 : p.1 = k := by simpa using List.find?_some hf
        have hp : p = (k, r) := by
          obtain ⟨a, b⟩ := p
          simp at hp1 h
          rw [hp1, h]
        rw [← hp]
        exact List.mem_of_find?_eq_some hf
    obtain ⟨hr, hne⟩ := hwf (k, r) hmem
    have hl : listenersOf st k = st.heap.getD r [] := by simp [listenersOf, h]
    have hspec := emitGo_spec behav args r (st.heap.getD r [])
      ((st.heap.getD r []).length) 0 st [] rfl hr (by omega)
    constructor
    · rw [hl]
      constructor
      · intro _
        exact hne
      · intro _
        simp only [emit, h]
    · rw [hl]
      simp only [emit, h]
      rw [hspec]
      simp

end EM

namespace EM

/-- A concrete emitter: listeners `1` then `2` registered for key `0`. -/
def twoListeners : EMState Nat := onE (onE ⟨[], []⟩ 0 1) 0 2

/-- C8 witness: emitting key `0` with arguments `[7]` while listener `1`
removes itself (via `off`) during its own invocation: well-formedness
holds, both listeners are still invoked in registration order with the
same arguments, and `emit` returns `true`. -/
theorem c8_witness :
    EMWF twoListeners ∧
    (emit twoListeners 0 [7] (fun l => if l = 1 then [EAct.offA 0 1] else [])).2.2
      = [(1, [7]), (2, [7])] ∧
    (emit twoListeners 0 [7] (fun l => if l = 1 then [EAct.offA 0 1] else [])).2.1 = true := by
  have hwf : EMWF twoListeners := by
    intro p hp
    rcases List.mem_cons.mp hp with h1 | h1
    · subst h1
      exact ⟨by decide, by decide⟩
    · exact absurd h1 (by simp)
  have h := c8_emit_snapshot_semantics Nat twoListeners 0 [7]
    (fun l => if l = 1 then [EAct.offA 0 1] else []) hwf
  exact ⟨hwf, h.2.trans (by decide), h.1.mpr (by decide)⟩

end EM

namespace EvB

/-!
Model of the `EventEmitter` listener bookkeeping — `on`, `once`, `off`
(Event.ts:32-42, 170-180, 65-79) — for claim C9.  Only the listener-list
CONTENT matters here, so the `Map` is modelled directly as an association
list from key to listener list (array identity, which matters only during
emission, is tracked in the `EM` model).  Listener identity: `on`
registers caller-supplied functions (`LId.user u`); each `once` call
creates a fresh wrapper closure `onceListener` — a new function object
every time — modelled as `LId.wrap w` with `w` drawn from a counter. -/

/-- A listener's identity: a caller-supplied function, or the fresh
wrapper `once` builds around one. -/
inductive LId where
  | user (u : Nat)
  | wrap (w : Nat)
  deriving Repr, DecidableEq

/-- Emitter bookkeeping state plus the supply of fresh wrapper ids. -/
structure EvState where
  tbl : List (Nat × List LId)
  nextW : Nat
  deriving Repr, DecidableEq

/-- The listener list registered for key `k` (empty when absent). -/
def getLs (tbl : List (Nat × List LId)) (k : Nat) : List LId :=
  match tbl.find? (fun p => p.1 = k) with
  | none => []
  | some p => p.2

/-- `Map.has`. -/
def hasKey (tbl : List (Nat × List LId)) (k : Nat) : Bool :=
  tbl.any (fun p => p.1 = k)

/-- `Map.set`. -/
def setLs (tbl : List (Nat × List LId)) (k : Nat) (ls : List LId) : List (Nat × List LId) :=
  if hasKey tbl k then tbl.map (fun p => if p.1 = k then (k, ls) else p)
  else tbl ++ [(k, ls)]

/-- `on(event, listener)` (Event.ts:32-42): create the key's list if
absent, then push the listener. -/
def onB (tbl : List (Nat × List LId)) (k : Nat) (l : LId) : List (Nat × List LId) :=
  setLs tbl k (getLs tbl k ++ [l])

/-- `off(event, listener)` (Event.ts:65-79): if the key exists, keep every
listener not identical (`!==`) to the argument; rebind the key if the
result is nonempty, delete the key otherwise. -/
def offB (tbl : List (Nat × List LId)) (k : Nat) (l : LId) : List (Nat × List LId) :=
  if hasKey tbl k then
    let nl := (getLs tbl k).filter (fun x => x ≠ l)
    if nl.length > 0 then setLs tbl k nl
    else tbl.filter (fun p => p.1 ≠ k)
  else tbl

/-- A bookkeeping call: `on` with a caller-supplied listener, `off` with
any listener value, or `once` (whose wrapper is fresh by construction). -/
inductive EOp where
  | onO (k : Nat) (u : Nat)
  | offO (k : Nat) (l : LId)
  | onceO (k : Nat)

/-- Run one call.  The boolean flags an `on` call whose listener is
already registered for that key — the one way `on`/`once` bookkeeping
produces a duplicate. -/
def stepOp (s : EvState) (op : EOp) : EvState × Bool :=
  match op with
  | EOp.onO k u => (⟨onB s.tbl k (LId.user u), s.nextW⟩, decide (LId.user u ∈ getLs s.tbl k))
  | EOp.offO k l => (⟨offB s.tbl k l, s.nextW⟩, false)
  | EOp.onceO k => (⟨onB s.tbl k (LId.wrap s.nextW), s.nextW + 1⟩, false)

/-- Run a sequence of calls, or-accumulating the duplicate flags. -/
def runOps (s : EvState) : List EOp → EvState × Bool
  | [] => (s, false)
  | op :: ops =>
      let p := stepOp s op
      let q := runOps p.1 ops
      (q.1, p.2 || q.2)

/-- A fresh emitter. -/
def ev0 : EvState := ⟨[], 0⟩

end EvB

namespace EvB

theorem getLs_of_hasKey_false (tbl : List (Nat × List LId)) (k : Nat)
    (h : hasKey tbl k = false) : getLs tbl k = [] := by
  simp only [hasKey, List.any_eq_false] at h
  unfold getLs
  rw [List.find?_eq_none.mpr h]

theorem find?_replace (tbl : List (Nat × List LId)) (k : Nat) (ls : List LId)
    (h : hasKey tbl k = true) :
    (tbl.map (fun p => if p.1 = k then (k, ls) else p)).find? (fun p => p.1 = k)
      = some (k, ls) := by
  induction tbl with
  | nil => simp [hasKey] at h
  | cons q tbl ih =>
    by_cases hq : q.1 = k
    · rw [List.map_cons, if_pos hq]
      exact List.find?_cons_of_pos _ (by simp)
    · rw [List.map_cons, if_neg hq]
      rw [List.find?_cons_of_neg _ (by simp [hq])]
      refine ih ?_
      simp only [hasKey, List.any_cons] at h ⊢
      simpa [hq] using h

theorem find?_replace_ne (tbl : List (Nat × List LId)) (k k' : Nat) (ls : List LId)
    (hk : k' ≠ k) :
    (tbl.map (fun p => if p.1 = k then (k, ls) else p)).find? (fun p => p.1 = k')
      = tbl.find? (fun p => p.1 = k') := by
  induction tbl with
  | nil => rfl
  | cons q tbl ih =>
    by_cases hq : q.1 = k
    · rw [List.map_cons, if_pos hq]
      rw [List.find?_cons_of_neg _ (by simp [Ne.symm hk])]
      rw [List.find?_cons_of_neg _ (by simp [hq, Ne.symm hk])]
      exact ih
    · rw [List.map_cons, if_neg hq]
      by_cases hq' : q.1 = k'
      · rw [List.find?_cons_of_pos _ (by simp [hq']), List.find?_cons_of_pos _ (by simp [hq'])]
      · rw [List.find?_cons_of_neg _ (by simp [hq']), List.find?_cons_of_neg _ (by simp [hq'])]
        exact ih

theorem getLs_setLs_self (tbl : List (Nat × List LId)) (k : Nat) (ls : List LId) :
    getLs (setLs tbl k ls) k = ls := by
  unfold setLs
  by_cases h : hasKey tbl k
  · rw [if_pos h]
    unfold getLs
    rw [find?_replace tbl k ls h]
  · rw [if_neg h]
    unfold getLs
    rw [List.find?_append]
    have h2 : tbl.find? (fun p => p.1 = k) = none := by
      refine List.find?_eq_none.mpr ?_
      rw [Bool.not_eq_true] at h
      simp only [hasKey, List.any_eq_false] at h
      exact h
    rw [h2]
    simp

theorem getLs_setLs_ne (tbl : List (Nat × List LId)) (k k' : Nat) (ls : List LId)
    (hk : k' ≠ k) : getLs (setLs tbl k ls) k' = getLs tbl k' := by
  unfold setLs
  by_cases h : hasKey tbl k
  · rw [if_pos h]
    unfold getLs
    rw [find?_replace_ne tbl k k' ls hk]
  · rw [if_neg h]
    unfold getLs
    rw [List.find?_append]
    cases hf : tbl.find? (fun p => p.1 = k') with
    | some p => simp
    | none => simp [Ne.symm hk]

theorem getLs_erase_self (tbl : List (Nat × List LId)) (k : Nat) :
    getLs (tbl.filter (fun p => p.1 ≠ k)) k = [] := by
  unfold getLs
  rw [List.find?_eq_none.mpr]
  intro a ha
  have h2 := (List.mem_filter.mp ha).2
  simp at h2 ⊢
  exact h2

theorem getLs_erase_ne (tbl : List (Nat × List LId)) (k k' : Nat) (hk : k' ≠ k) :
    getLs (tbl.filter (fun p => p.1 ≠ k)) k' = getLs tbl k' := by
  unfold getLs
  induction tbl with
  | nil => rfl
  | cons q tbl ih =>
    by_cases hq : q.1 = k
    · rw [List.filter_cons_of_neg (by simp [hq])]
      rw [List.find?_cons_of_neg _ (by simp [hq, Ne.symm hk])]
      exact ih
    · rw [List.filter_cons_of_pos (by simp [hq])]
      by_cases hq' : q.1 = k'
      · rw [List.find?_cons_of_pos _ (by simp [hq']), List.find?_cons_of_pos _ (by simp [hq'])]
      · rw [List.find?_cons_of_neg _ (by simp [hq']), List.find?_cons_of_neg _ (by simp [hq'])]
        exact ih

theorem getLs_onB_self (tbl : List (Nat × List LId)) (k : Nat) (l : LId) :
    getLs (onB tbl k l) k = getLs tbl k ++ [l] :=
  getLs_setLs_self tbl k _

theorem getLs_onB_ne (tbl : List (Nat × List LId)) (k k' : Nat) (l : LId) (hk : k' ≠ k) :
    getLs (onB tbl k l) k' = getLs tbl k' :=
  getLs_setLs_ne tbl k k' _ hk

/-- C9's `off` contract, proved on the bookkeeping model: `off` removes
exactly the listeners identical to its argument, preserving the others in
order. -/
theorem getLs_offB_self (tbl : List (Nat × List LId)) (k : Nat) (l : LId) :
    getLs (offB tbl k l) k = (getLs tbl k).filter (fun x => x ≠ l) := by
  unfold offB
  by_cases h : hasKey tbl k
  · rw [if_pos h]
    by_cases h2 : ((getLs tbl k).filter (fun x => x ≠ l)).length > 0
    · rw [if_pos h2]
      exact getLs_setLs_self tbl k _
    · rw [if_neg h2]
      have hnl : (getLs tbl k).filter (fun x => x ≠ l) = [] := by
        cases hc : (getLs tbl k).filter (fun x => x ≠ l) with
        | nil => rfl
        | cons a as => rw [hc] at h2; simp at h2
      rw [hnl]
      exact getLs_erase_self tbl k
  · rw [if_neg h]
    rw [getLs_of_hasKey_false tbl k (by simpa using h)]
    rfl

theorem getLs_offB_ne (tbl : List (Nat × List LId)) (k k' : Nat) (l : LId) (hk : k' ≠ k) :
    getLs (offB tbl k l) k' = getLs tbl k' := by
  unfold offB
  by_cases h : hasKey tbl k
  · rw [if_pos h]
    by_cases h2 : ((getLs tbl k).filter (fun x => x ≠ l)).length > 0
    · rw [if_pos h2]
      exact getLs_setLs_ne tbl k k' _ hk
    · rw [if_neg h2]
      exact getLs_erase_ne tbl k k' hk
  · rw [if_neg h]

end EvB

namespace EvB

/-- The bookkeeping invariant: every key's list is duplicate-free and
every wrapper id appearing in any list is below the fresh-id counter. -/
def Inv (s : EvState) : Prop :=
  (∀ k, (getLs s.tbl k).Nodup) ∧
  (∀ k w, LId.wrap w ∈ getLs s.tbl k → w < s.nextW)

theorem stepOp_preserves (s : EvState) (op : EOp) (hInv : Inv s)
    (hok : (stepOp s op).2 = false) : Inv (stepOp s op).1 := by
  obtain ⟨hN, hW⟩ := hInv
  cases op with
  | onO k u =>
    have hnm : LId.user u ∉ getLs s.tbl k := by
      simp only [stepOp] at hok
      simpa using hok
    constructor
    · intro k2
      by_cases hk : k2 = k
      · subst hk
        show (getLs (onB s.tbl k2 (LId.user u)) k2).Nodup
        rw [getLs_onB_self]
        simp [List.nodup_append, hN k2, hnm]
      · show (getLs (onB s.tbl k (LId.user u)) k2).Nodup
        rw [getLs_onB_ne _ _ _ _ hk]
        exact hN k2
    · intro k2 w hw
      show w < s.nextW
      by_cases hk : k2 = k
      · subst hk
        rw [show getLs (stepOp s (EOp.onO k2 u)).1.tbl k2 = getLs (onB s.tbl k2 (LId.user u)) k2 from rfl, getLs_onB_self] at hw
        rcases List.mem_append.mp hw with hw | hw
        · exact hW _ w hw
        · simp at hw
      · rw [show getLs (stepOp s (EOp.onO k u)).1.tbl k2 = getLs (onB s.tbl k (LId.user u)) k2 from rfl, getLs_onB_ne _ _ _ _ hk] at hw
        exact hW _ w hw
  | offO k l =>
    constructor
    · intro k2
      by_cases hk : k2 = k
      · subst hk
        show (getLs (offB s.tbl k2 l) k2).Nodup
        rw [getLs_offB_self]
        exact (hN k2).filter _
      · show (getLs (offB s.tbl k l) k2).Nodup
        rw [getLs_offB_ne _ _ _ _ hk]
        exact hN k2
    · intro k2 w hw
      show w < s.nextW
      by_cases hk : k2 = k
      · subst hk
        rw [show getLs (stepOp s (EOp.offO k2 l)).1.tbl k2 = getLs (offB s.tbl k2 l) k2 from rfl, getLs_offB_self] at hw
        exact hW k2 w (List.mem_filter.mp hw).1
      · rw [show getLs (stepOp s (EOp.offO k l)).1.tbl k2 = getLs (offB s.tbl k l) k2 from rfl, getLs_offB_ne _ _ _ _ hk] at hw
        exact hW k2 w hw
  | onceO k =>
    constructor
    · intro k2
      by_cases hk : k2 = k
      · subst hk
        show (getLs (onB s.tbl k2 (LId.wrap s.nextW)) k2).Nodup
        rw [getLs_onB_self]
        have hfresh : LId.wrap s.nextW ∉ getLs s.tbl k2 :=
          fun hmem => absurd (hW k2 s.nextW hmem) (by omega)
        simp [List.nodup_append, hN k2, hfresh]
      · show (getLs (onB s.tbl k (LId.wrap s.nextW)) k2).Nodup
        rw [getLs_onB_ne _ _ _ _ hk]
        exact hN k2
    · intro k2 w hw
      show w < s.nextW + 1
      by_cases hk : k2 = k
      · subst hk
        rw [show getLs (stepOp s (EOp.onceO k2)).1.tbl k2 = getLs (onB s.tbl k2 (LId.wrap s.nextW)) k2 from rfl, getLs_onB_self] at hw
        rcases List.mem_append.mp hw with hw | hw
        · have := hW k2 w hw
          omega
        · simp at hw
          omega
      · rw [show getLs (stepOp s (EOp.onceO k)).1.tbl k2 = getLs (onB s.tbl k (LId.wrap s.nextW)) k2 from rfl, getLs_onB_ne _ _ _ _ hk] at hw
        have := hW k2 w hw
        omega

theorem runOps_inv (ops : List EOp) :
    ∀ s, Inv s → (runOps s ops).2 = false → Inv (runOps s ops).1 := by
  induction ops with
  | nil => exact fun s h _ => h
  | cons op ops ih =>
    intro s hInv hok
    have heq : (runOps s (op :: ops)).2 = ((stepOp s op).2 || (runOps (stepOp s op).1 ops).2) := rfl
    rw [heq] at hok
    obtain ⟨h1, h2⟩ := Bool.or_eq_false_iff.mp hok
    have hstep := stepOp_preserves s op hInv h1
    have heq2 : (runOps s (op :: ops)).1 = (runOps (stepOp s op).1 ops).1 := rfl
    rw [heq2]
    exact ih (stepOp s op).1 hstep h2

/-- C9 (amended): after any sequence of `on`, `once` and `off` calls in
which no `on` call passes a listener already registered for that key
(`once`'s wrapper is a fresh function object on every call, so it never
collides), every listener appears at most once in the listener list of
every key; and `off` removes by reference identity: it removes exactly
the occurrences identical to its argument, preserving the order of the
rest.  Without that proviso the at-most-once part fails: `on` pushes
unconditionally (see the counterexample). -/
theorem c9_listener_bookkeeping (ops : List EOp) (h : (runOps ev0 ops).2 = false) :
    (∀ k, (getLs (runOps ev0 ops).1.tbl k).Nodup) ∧
    (∀ (tbl : List (Nat × List LId)) (k : Nat) (l : LId),
      getLs (offB tbl k l) k = (getLs tbl k).filter (fun x => x ≠ l)) := by
  have hInv0 : Inv ev0 := by
    constructor
    · intro k
      show (getLs [] k).Nodup
      simp [getLs]
    · intro k w hw
      show w < 0
      simp [getLs, ev0] at hw
  exact ⟨(runOps_inv ops ev0 hInv0 h).1, fun tbl k l => getLs_offB_self tbl k l⟩

/-- C9 counterexample: calling `on` twice with the same listener for the
same key leaves it registered twice — the claimed at-most-once invariant
fails on the code, which pushes unconditionally. -/
theorem c9_counterexample :
    getLs (runOps ev0 [EOp.onO 0 5, EOp.onO 0 5]).1.tbl 0 = [LId.user 5, LId.user 5] ∧
    ¬ (getLs (runOps ev0 [EOp.onO 0 5, EOp.onO 0 5]).1.tbl 0).Nodup := by
  constructor
  · decide
  · decide

/-- C9 witness: a concrete run of `on`, `once`, `on`, `off` with no
duplicate `on` call, plus the off-by-identity equation at a concrete
table holding a listener twice. -/
theorem c9_witness :
    (runOps ev0 [EOp.onO 0 1, EOp.onceO 0, EOp.onO 0 2, EOp.offO 0 (LId.user 1)]).2 = false ∧
    (∀ k, (getLs (runOps ev0 [EOp.onO 0 1, EOp.onceO 0, EOp.onO 0 2, EOp.offO 0 (LId.user 1)]).1.tbl k).Nodup) ∧
    getLs (offB [(0, [LId.user 1, LId.user 2, LId.user 1])] 0 (LId.user 1)) 0 = [LId.user 2] := by
  have h := c9_listener_bookkeeping
    [EOp.onO 0 1, EOp.onceO 0, EOp.onO 0 2, EOp.offO 0 (LId.user 1)] (by decide)
  exact ⟨by decide, h.1, (h.2 [(0, [LId.user 1, LId.user 2, LId.user 1])] 0 (LId.user 1)).trans (by decide)⟩

end EvB

namespace Eff

/-!
Model of `effect` (src/unnamed/part_002) for claim C10.  A dependency is
either an `ObservableValue` instance (identified by an index) or any
other value (`bad`, which fails the `instanceof` check).  The
`instanceof` check runs inside the same loop that subscribes, one
dependency at a time, so a bad entry throws the `TypeError` after the
earlier subscriptions have already been registered; the collected
unsubscribe functions are a local variable lost in the unwind, and the
caller receives no detachment function.
-/

/-- One entry of the `dependencies` array. -/
inductive Dep where
  | obs (i : Nat)
  | bad
  deriving Repr, DecidableEq

/-- The subscription loop of `effect` (part_002:41-49): for each
dependency, first the `instanceof ObservableValue` check (throwing the
`TypeError` on failure), then `dependency.subscribe(executeCallback)`.
Threads the subscriptions performed so far; returns them plus whether the
loop threw. -/
def effectLoop : List Dep → List Nat → List Nat × Bool
  | [], subs => (subs, false)
  | Dep.obs i :: rest, subs => effectLoop rest (subs ++ [i])
  | Dep.bad :: _, subs => (subs, true)

/-- `effect(callback, dependencies)` (part_002:10-57): with an empty
dependency list, no subscription and a no-op cleanup; otherwise the
subscription loop runs.  Result: the subscriptions actually registered,
whether the `TypeError` propagated, and the cleanup handed to the caller
(`some` of the subscriptions it detaches, `none` when the throw unwound
before the cleanup function could be returned). -/
def effectRun (deps : List Dep) : List Nat × Bool × Option (List Nat) :=
  if deps = [] then ([], false, some [])
  else
    let p := effectLoop deps []
    (p.1, p.2, if p.2 then none else some p.1)

theorem effectLoop_obs_bad (ks : List Nat) (rest : List Dep) (subs : List Nat) :
    effectLoop (ks.map Dep.obs ++ Dep.bad :: rest) subs = (subs ++ ks, true) := by
  induction ks generalizing subs with
  | nil => simp [effectLoop]
  | cons i ks ih =>
    show effectLoop (ks.map Dep.obs ++ Dep.bad :: rest) (subs ++ [i]) = _
    rw [ih (subs ++ [i])]
    simp

/-- C10: `effect`'s dependency validation is not atomic.  For a dependency
array whose first `k ≥ 1` entries are `ObservableValue`s and whose next
entry is not, `effect` throws the `TypeError` only after subscribing its
callback to each of the first `k` dependencies, in order; those `k`
subscriptions remain registered, and the caller receives no detachment
function for them. -/
theorem c10_effect_validation_not_atomic (ks : List Nat) (rest : List Dep) (_hk : ks ≠ []) :
    effectRun (ks.map Dep.obs ++ Dep.bad :: rest) = (ks, true, none) := by
  have hne : ks.map Dep.obs ++ Dep.bad :: rest ≠ [] := by
    simp
  unfold effectRun
  rw [if_neg hne]
  rw [show effectLoop (ks.map Dep.obs ++ Dep.bad :: rest) [] = ([] ++ ks, true) from effectLoop_obs_bad ks rest []]
  simp

/-- C10 witness: two observable dependencies followed by a non-observable
one — both get subscribed, the TypeError propagates, no cleanup returned. -/
theorem c10_witness :
    ([3, 7] : List Nat) ≠ [] ∧
    effectRun ([3, 7].map Dep.obs ++ Dep.bad :: [Dep.obs 9]) = ([3, 7], true, none) :=
  ⟨by decide, c10_effect_validation_not_atomic [3, 7] [Dep.obs 9] (by decide)⟩

end Eff
